import Mathlib

/-!
Shallow embedding of `stagit-index.c` (stagit-index)

The program writes one HTML index page for a list of repositories.  This file
embeds the text encoders, the path joiner, the sidecar-file reader, the row
writer and the driver loop of `stagit-index.c` as Lean functions, and proves
the properties of the specification about them.

Conventions of the embedding:

* a byte is a `Fin 256`; a buffer of `char` is a `List Byte`;
* a C string stored in a buffer is the content before the first NUL byte
  (`cstr`); the end of the list also ends the string;
* a `FILE *` opened for writing is the list of the bytes written to it, so
  every printing function returns the bytes it writes;
* library and operating-system calls that are not part of the source file
  (`realpath`, `fopen`, libgit2, `gmtime`, `strftime`, `PATH_MAX`) are fields
  of an environment record `Env`.
-/

namespace Stagit

/-- One `char` / `unsigned char`. -/
abbrev Byte := Fin 256

/-- UTF-8 bytes of one character of a string literal of the source file. -/
def litChar (c : Char) : List Byte :=
  let n := c.toNat
  if n < 0x80 then [Fin.ofNat n]
  else if n < 0x800 then [Fin.ofNat (0xC0 + n / 64), Fin.ofNat (0x80 + n % 64)]
  else if n < 0x10000 then
    [Fin.ofNat (0xE0 + n / 4096), Fin.ofNat (0x80 + n / 64 % 64), Fin.ofNat (0x80 + n % 64)]
  else
    [Fin.ofNat (0xF0 + n / 262144), Fin.ofNat (0x80 + n / 4096 % 64),
     Fin.ofNat (0x80 + n / 64 % 64), Fin.ofNat (0x80 + n % 64)]

/-- Bytes of a C string literal (without its terminating NUL). -/
def lit (s : String) : List Byte := s.toList.flatMap litChar

/-- The C string held in a buffer: the bytes before the first NUL. -/
def cstr (buf : List Byte) : List Byte := buf.takeWhile (fun b => b != 0)

/-- Model of `strlen(s)`. -/
def strlen (s : List Byte) : Nat := (cstr s).length

/-! ## Text encoders (lines 31-66) -/

/-- The table `static char tab[] = "0123456789ABCDEF"` of `percentencode`. -/
def tab : List Byte := lit "0123456789ABCDEF"

/-- Body of the loop of `percentencode` for one byte `uc` (lines 39-47). -/
def percentencodeByte (uc : Byte) : List Byte :=
  -- uc < '/' || uc >= 127 || (uc >= ':' && uc <= '@') || uc == '[' || uc == ']'
  if uc.val < 47 ∨ uc.val ≥ 127 ∨ (uc.val ≥ 58 ∧ uc.val ≤ 64) ∨ uc.val = 91 ∨ uc.val = 93 then
    -- putc('%'), putc(tab[(uc >> 4) & 0x0f]), putc(tab[uc & 0x0f])
    [37, tab.getD ((uc.val >>> 4) &&& 0x0f) 0, tab.getD (uc.val &&& 0x0f) 0]
  else
    [uc]

/-- Model of `percentencode(fp, s, len)`: the bytes written to `fp`.  The loop
`for (i = 0; *s && i < len; s++, i++)` stops at a NUL byte or after `len` bytes. -/
def percentencode : List Byte → Nat → List Byte
  | [], _ => []
  | c :: s, len =>
    if c = 0 then []
    else match len with
      | 0 => []
      | len + 1 => percentencodeByte c ++ percentencode s len

/-- Body of the loop of `xmlencode` for one byte (the `switch`, lines 57-64). -/
def xmlencodeByte (c : Byte) : List Byte :=
  if c = 60 then lit "&lt;"        -- case '<'
  else if c = 62 then lit "&gt;"   -- case '>'
  else if c = 39 then lit "&#39;"  -- case '\''
  else if c = 38 then lit "&amp;"  -- case '&'
  else if c = 34 then lit "&quot;" -- case '"'
  else [c]

/-- Model of `xmlencode(fp, s, len)`: the bytes written to `fp`. -/
def xmlencode : List Byte → Nat → List Byte
  | [], _ => []
  | c :: s, len =>
    if c = 0 then []
    else match len with
      | 0 => []
      | len + 1 => xmlencodeByte c ++ xmlencode s len

/-! ## Path joiner (lines 20-29) -/

/-- The constant `INT_MAX` of `<limits.h>` (32-bit `int`). -/
def INT_MAX : Nat := 2147483647

/-- Value returned by `snprintf` for a formatted output of `n` bytes: the
length, or a negative value when the length does not fit an `int`. -/
def snprintfRet (n : Nat) : Int := if n > INT_MAX then -1 else (n : Int)

/-- Model of `joinpath(buf, bufsiz, path, path2)`: `none` when `errx` terminates the
process, otherwise the C string that `snprintf` left in `buf` (at most
`bufsiz - 1` bytes of the formatted output). -/
def joinpath (bufsiz : Nat) (path path2 : List Byte) : Option (List Byte) :=
  let p := cstr path
  -- path[0] && path[strlen(path) - 1] != '/' ? "/" : ""
  let sep := if p ≠ [] ∧ p.getLast? ≠ some 47 then lit "/" else lit ""
  let formatted := p ++ sep ++ cstr path2
  let r := snprintfRet formatted.length
  if r < 0 ∨ r.toNat ≥ bufsiz then none
  else some (formatted.take (bufsiz - 1))

/-! ## Environment: the library calls the program makes -/

/-- A `git_signature`; only `when.time` is read. -/
structure Signature where
  when : Int

/-- A `git_commit`; `git_commit_author` may return `NULL`. -/
structure Commit where
  author : Option Signature

/-- An opened `git_repository`: what the history walk pushed at `HEAD` yields
first (`git_revwalk_next`), and `git_commit_lookup`. -/
structure Repository where
  revwalk_next : Option Nat
  commit_lookup : Nat → Option Commit

/-- A `struct tm` as returned by `gmtime`. -/
structure Tm where
  tm_year : Int
  tm_mon : Int
  tm_mday : Int
  tm_hour : Int
  tm_min : Int

/-- The calls that leave the source file.  `fopen` gives the bytes the stream
delivers before end of file or a read error; `strftime` gives the content of
`out[32]` for the format `"%Y-%m-%d %H:%M"`; `malloc_ok n` tells whether an
allocation of `n` bytes succeeds. -/
structure Env where
  PATH_MAX : Nat
  realpath : List Byte → Option (List Byte)
  repository_open : List Byte → Option Repository
  fopen : List Byte → Option (List Byte)
  gmtime : Int → Option Tm
  strftime : Tm → List Byte
  malloc_ok : Nat → Bool

/-! ## Time formatter (lines 68-79) -/

/-- Model of `printtimeshort(fp, intime)`: nothing when `gmtime` fails. -/
def printtimeshort (env : Env) (intime : Int) : List Byte :=
  match env.gmtime intime with
  | none => []
  | some intm => cstr (env.strftime intm)

/-! ## Header and footer (lines 81-111) -/

/-- Model of `writeheader(fp)` with the current content of the global `description`. -/
def writeheader (description : List Byte) : List Byte :=
  lit ("<!doctype html>\n"
    ++ "<html>\n<head>\n"
    ++ "<meta http-equiv=\"Content-Type\" content=\"text/html; charset=UTF-8\" />\n"
    ++ "<meta name=\"viewport\" content=\"width=device-width, initial-scale=1\" />\n"
    ++ "<title>rj1 > repos</title>")
  ++ lit ("<link rel=\"stylesheet\" type=\"text/css\" href=\"/css/style.css\">\n"
    ++ "<link rel=\"icon\" href=\"/favicon.svg\">\n")
  ++ lit ("</head>\n<body id=\"home\">\n<div class=\"content\">\n<header>\n"
    ++ "<div class=\"main\">\n<a href=\"/\"><img src=\"/img/rj1.svg\" alt=\"rj1\" width=\"50\"></a>\n</div>\n<nav>\n"
    ++ "<a href=\"/\">home</a>\n<a href=\"/notes\">notes</a>\n<a href=\"/repos\">repos</a>\n<a href=\"/notes/index.xml\">rss</a>\n"
    ++ "</nav>\n</header>\n<h1>")
  ++ xmlencode description (strlen description)
  ++ lit ("</h1>\n<div id=\"content\">\n"
    ++ "<table id=\"index\"><thead>\n"
    ++ "<tr><th><b>name</b></th><th><b>description</b></th><th><b>last commit</b></th></tr>"
    ++ "</thead><tbody>\n")

/-- Model of `writefooter(fp)`.  The escape `\/` of the source literal is the byte `/`. -/
def writefooter : List Byte :=
  lit ("</tbody>\n</table>\n"
    ++ "<footer>\n<hr>\n<div class=\"meta\">\n"
    ++ "｢mail: <a href=\"mailto:rj1@riseup.net\">rj1@riseup.net</a>｣ "
    ++ "｢irc: <a href=\"ircs://internetrelaychat.net:6697\">rj1@internetrelaychat.net</a>｣ "
    ++ "｢gh: <a href=\"https://github.com/rj1\">rj1</a>｣ "
    ++ "｢pgp: <a href=\"/gpg.txt\">F0:42:A0:B6:CB:41:FD:A2</a>｣</div>"
    ++ "</div>\n</footer>\n</div>\n</body>\n</html>\n")

/-! ## Row of a repository (lines 114-158) -/

/-- Scan of `strrchr`: the index of the last occurrence of `c` in a string. -/
def strrchrGo (c : Byte) : List Byte → Option Nat
  | [] => none
  | x :: xs =>
    match strrchrGo c xs with
    | some i => some (i + 1)
    | none => if x = c then some 0 else none

/-- Model of `strrchr(s, c)` for `c ≠ 0`: the index of the last occurrence of
`c` in the C string `s`, `none` for a `NULL` result. -/
def strrchr (s : List Byte) (c : Byte) : Option Nat := strrchrGo c (cstr s)

/-- Model of `!strcmp(a, b)`: the two C strings are equal. -/
def streq (a b : List Byte) : Bool := cstr a == cstr b

/-- Model of `strdup(s)`: `none` when the allocation fails. -/
def strdup (env : Env) (s : List Byte) : Option (List Byte) :=
  if env.malloc_ok (strlen s + 1) then some (cstr s) else none

/-- Lines 137-139: `if ((p = strrchr(stripped_name, '.'))) if (!strcmp(p, ".git")) *p = '\0';`
applied to the copy of the name; the result is the C string left in the copy. -/
def stripGitSuffix (stripped_name : List Byte) : List Byte :=
  match strrchr stripped_name 46 with
  | some p => if streq (stripped_name.drop p) (lit ".git") then cstr (stripped_name.set p 0)
              else stripped_name
  | none => stripped_name

/-- Model of `writelog(fp)` with the globals `repo`, `name` and `description`: `none`
when `err(1, "strdup")` terminates the process, otherwise the bytes written
and the value returned. -/
def writelog (env : Env) (repo : Repository) (name description : List Byte) :
    Option (List Byte × Int) :=
  match repo.revwalk_next with
  | none => some ([], -1)
  | some id =>
    match repo.commit_lookup id with
    | none => some ([], -1)
    | some commit =>
      match strdup env name with
      | none => none
      | some copy =>
        let stripped_name := stripGitSuffix copy
        some (lit "<tr class=\"repo\"><td><a href=\""
          ++ percentencode stripped_name (strlen stripped_name)
          ++ lit "/\">"
          ++ xmlencode stripped_name (strlen stripped_name)
          ++ lit "</a></td><td>"
          ++ xmlencode description (strlen description)
          ++ lit "</td><td>"
          ++ (match commit.author with
              | some author => printtimeshort env author.when
              | none => [])
          ++ lit "</td></tr>\n", 0)

/-! ## Sidecar files (lines 210-238) -/

/-- The bytes `fgets` takes from a stream: at most `n`, stopping after a newline. -/
def fgetsLine : Nat → List Byte → List Byte
  | 0, _ => []
  | _ + 1, [] => []
  | n + 1, c :: data => if c = 10 then [c] else c :: fgetsLine n data

/-- Model of `fgets(buf, size, fp)` on a stream that delivers `data`: `none` for a
`NULL` result (nothing could be read), otherwise the buffer after the call:
the bytes read, a NUL, and the old content behind it. -/
def fgets (buf : List Byte) (size : Nat) (data : List Byte) : Option (List Byte) :=
  if data = [] then none
  else
    let line := fgetsLine (size - 1) data
    some (line ++ 0 :: buf.drop (line.length + 1))

/-- Lines 211-215 and 227-231: open `repodir/file`, else `repodir/.git/file`.
The outer `none` is the fatal exit of `joinpath`, the inner one a `NULL` stream. -/
def openSidecar (env : Env) (repodir : List Byte) (file gitfile : String) :
    Option (Option (List Byte)) :=
  match joinpath env.PATH_MAX repodir (lit file) with
  | none => none
  | some path =>
    match env.fopen path with
    | some fp => some (some fp)
    | none =>
      match joinpath env.PATH_MAX repodir (lit gitfile) with
      | none => none
      | some path => some (env.fopen path)

/-- Lines 216-224: the buffer `description` after the read; the argument is
the buffer as the previous repository left it. -/
def readDescription (description : List Byte) (fp : Option (List Byte)) : List Byte :=
  let description := description.set 0 0
  match fp with
  | none => description
  | some data =>
    let description :=
      match fgets description 255 data with
      | none => description.set 0 0
      | some d => d
    let tmp := strlen description
    if tmp > 0 ∧ description.getD (tmp - 1) 0 = 10 then description.set (tmp - 1) 0
    else description

/-- Model of `strcspn(s, "\n")`. -/
def strcspnNewline (s : List Byte) : Nat := ((cstr s).takeWhile (fun b => b != 10)).length

/-- Lines 232-238: the buffer `owner` after the read. -/
def readOwner (owner : List Byte) (fp : Option (List Byte)) : List Byte :=
  let owner := owner.set 0 0
  match fp with
  | none => owner
  | some data =>
    let owner :=
      match fgets owner 255 data with
      | none => owner.set 0 0
      | some d => d
    owner.set (strcspnNewline owner) 0

/-! ## Driver (lines 160-250) -/

/-- The state the loop of `main` carries: the bytes written to `stdout`, the
local `ret`, and the static buffers `description` and `owner`. -/
structure State where
  out : List Byte
  ret : Int
  description : List Byte
  owner : List Byte
  deriving DecidableEq

/-- Result of the loop: `fatal out` when `err`/`errx` ended the process (exit
status 1) after `out` was written, `finished st` when the loop ran to its end. -/
inductive Run where
  | fatal (out : List Byte)
  | finished (st : State)
  deriving DecidableEq

/-- Result of `main`: `usage` is the `return 1` for `argc < 2` (nothing on
`stdout`), `fatal out` an exit through `err`/`errx` with status 1 after `out`
was written, `exit ret out` the `return ret` at the end. -/
inductive Outcome where
  | usage
  | fatal (out : List Byte)
  | exit (ret : Int) (out : List Byte)
  deriving DecidableEq
  

/-- Exit status of the process. -/
def Outcome.status : Outcome → Int
  | .usage => 1
  | .fatal _ => 1
  | .exit ret _ => ret

/-- Bytes on standard output when the process ends. -/
def Outcome.stdout : Outcome → List Byte
  | .usage => []
  | .fatal out => out
  | .exit _ out => out

/-- Lines 187-189: the row of a category. -/
def writecategory (repodir : List Byte) : List Byte :=
  lit "<tr class=\"cat\"><td>" ++ xmlencode repodir (strlen repodir)
    ++ lit "</td><td></td><td></td></tr>\n"

/-- Lines 205-208: `name` is what follows the last `/` of `repodirabs`. -/
def repoName (repodirabs : List Byte) : List Byte :=
  match strrchr repodirabs 47 with
  | some p => (cstr repodirabs).drop (p + 1)
  | none => lit ""

/-- Lines 193-240: the body of the loop for a repository argument. -/
def processRepo (env : Env) (repodir : List Byte) (st : State) : Run :=
  match env.realpath (cstr repodir) with
  | none => .fatal st.out
  | some repodirabs =>
    match env.repository_open (cstr repodir) with
    | none => .finished { st with ret := 1 }
    | some repo =>
      let name := repoName repodirabs
      match openSidecar env repodir "description" ".git/description" with
      | none => .fatal st.out
      | some fp =>
        let description := readDescription st.description fp
        match openSidecar env repodir "owner" ".git/owner" with
        | none => .fatal st.out
        | some fp =>
          let owner := readOwner st.owner fp
          match writelog env repo name description with
          | none => .fatal st.out
          | some (row, _) =>
            .finished { out := st.out ++ row, ret := st.ret,
                        description := description, owner := owner }

/-- Lines 181-241: the loop over `argv[1..]`. -/
def mainLoop (env : Env) : List (List Byte) → State → Run
  | [], st => .finished st
  | arg :: rest, st =>
    if streq arg (lit "-c") then
      match rest with
      | [] => .fatal st.out
      | repodir :: rest => mainLoop env rest { st with out := st.out ++ writecategory repodir }
    else
      match processRepo env arg st with
      | .fatal out => .fatal out
      | .finished st => mainLoop env rest st

/-- The buffer `static char description[255] = "repos"`. -/
def description0 : List Byte := lit "repos" ++ List.replicate 250 0

/-- The buffer `static char owner[255]`. -/
def owner0 : List Byte := List.replicate 255 0

/-- The state when the loop starts: the header is written (line 179). -/
def state0 : State :=
  { out := writeheader description0, ret := 0, description := description0, owner := owner0 }

/-- Model of `main(argc, argv)`. -/
def main (env : Env) (argv : List (List Byte)) : Outcome :=
  if argv.length < 2 then .usage
  else
    match mainLoop env argv.tail state0 with
    | .fatal out => .fatal out
    | .finished st => .exit st.ret (st.out ++ writefooter)

/-! ## Definitions used to state the properties -/

/-- The five character references of the markup encoder. -/
def entities : List (List Byte) :=
  [lit "&lt;", lit "&gt;", lit "&#39;", lit "&amp;", lit "&quot;"]

/-- Uppercase hexadecimal digit of a nibble. -/
def upperHexDigit (n : Nat) : Byte :=
  if n < 10 then Fin.ofNat (48 + n) else Fin.ofNat (55 + n)

/-- Value of a hexadecimal digit, in either case. -/
def hexValue (c : Byte) : Option Nat :=
  if 48 ≤ c.val ∧ c.val ≤ 57 then some (c.val - 48)
  else if 65 ≤ c.val ∧ c.val ≤ 70 then some (c.val - 55)
  else if 97 ≤ c.val ∧ c.val ≤ 102 then some (c.val - 87)
  else none

/-- Reference percent-decoder of RFC 3986: `%` followed by two hexadecimal
digits stands for the byte with that value, every other byte for itself. -/
def percentdecode : List Byte → List Byte
  | [] => []
  | c :: h :: l :: rest =>
    if c = 37 then
      match hexValue h, hexValue l with
      | some x, some y => Fin.ofNat (16 * x + y) :: percentdecode rest
      | _, _ => c :: percentdecode (h :: l :: rest)
    else c :: percentdecode (h :: l :: rest)
  | c :: rest => c :: percentdecode rest

/-- The bytes `percentencode` copies unchanged: `/`, the digits, the letters,
and the punctuation `\ ^ _ backquote { | } ~`. -/
def copiedVerbatim (b : Byte) : Prop :=
  b = 47 ∨ (48 ≤ b.val ∧ b.val ≤ 57) ∨ (65 ≤ b.val ∧ b.val ≤ 90) ∨ (97 ≤ b.val ∧ b.val ≤ 122)
    ∨ b = 92 ∨ b = 94 ∨ b = 95 ∨ b = 96 ∨ b = 123 ∨ b = 124 ∨ b = 125 ∨ b = 126

instance (b : Byte) : Decidable (copiedVerbatim b) := by
  unfold copiedVerbatim; infer_instance

/-- Every `&` of a byte string is the first byte of one of the five entities. -/
def AmpStartsEntity (out : List Byte) : Prop :=
  ∀ pre post, out = pre ++ 38 :: post → ∃ e ∈ entities, e <+: 38 :: post

/-- The display name without a trailing `.git`: the last four bytes are
removed when the name ends with `.git`, and only then. -/
def withoutGitSuffix (name : List Byte) : List Byte :=
  if lit ".git" <:+ cstr name then (cstr name).take ((cstr name).length - 4) else cstr name

/-- The row of a repository: link text `s`, description `d`, time cell `t`. -/
def repoRow (s d t : List Byte) : List Byte :=
  lit "<tr class=\"repo\"><td><a href=\"" ++ percentencode s (strlen s) ++ lit "/\">"
    ++ xmlencode s (strlen s) ++ lit "</a></td><td>" ++ xmlencode d (strlen d)
    ++ lit "</td><td>" ++ t ++ lit "</td></tr>\n"

/-- The string `joinpath` is meant to build: base, a `/` unless the base is
empty or ends in `/`, then the relative component. -/
def joined (path path2 : List Byte) : List Byte :=
  cstr path ++ (if cstr path = [] ∨ (cstr path).getLast? = some 47 then [] else [47])
    ++ cstr path2

/-- First line of a file without its newline, cut to 254 bytes. -/
def firstLine (data : List Byte) : List Byte :=
  (data.takeWhile (fun b => b != 10)).take 254

/-- Removing a final newline from a string. -/
def chomp (s : List Byte) : List Byte :=
  if s.getLast? = some 10 then s.dropLast else s

/-- What an argument list asks for, read from left to right. -/
inductive Item where
  | category (label : List Byte)
  | repository (repodir : List Byte)
  deriving DecidableEq

/-- The items of `argv[1..]`; `none` when a `-c` has no label behind it. -/
def parseArgs : List (List Byte) → Option (List Item)
  | [] => some []
  | arg :: rest =>
    if streq arg (lit "-c") then
      match rest with
      | [] => none
      | label :: rest => (parseArgs rest).map (fun items => Item.category label :: items)
    else (parseArgs rest).map (fun items => Item.repository arg :: items)

/-- The commit a repository resolves to: the first commit of the walk from
its head, when the walk and the lookup both succeed. -/
def headCommit (repo : Repository) : Option Commit :=
  match repo.revwalk_next with
  | none => none
  | some id => repo.commit_lookup id

/-- The time cell of a commit: its author time as `printtimeshort` writes it,
empty without author. -/
def timeCell (env : Env) (commit : Commit) : List Byte :=
  match commit.author with
  | some author => printtimeshort env author.when
  | none => []

/-- The description of a repository directory: the first line of
`description`, else of `.git/description`, empty when neither opens. -/
def descriptionOf (env : Env) (repodir : List Byte) : List Byte :=
  match openSidecar env repodir "description" ".git/description" with
  | some (some data) => cstr (firstLine data)
  | _ => []

/-- The row an item contributes to the page, from the item and the
environment alone: a category gives its row; a repository gives one
repository row when it opens and resolves to a commit, and nothing otherwise. -/
def expectedRow (env : Env) : Item → List Byte
  | .category label =>
    lit "<tr class=\"cat\"><td>" ++ xmlencode label (strlen label)
      ++ lit "</td><td></td><td></td></tr>\n"
  | .repository repodir =>
    match env.realpath (cstr repodir) with
    | none => []
    | some repodirabs =>
      match env.repository_open (cstr repodir) with
      | none => []
      | some repo =>
        match headCommit repo with
        | none => []
        | some commit =>
          repoRow (withoutGitSuffix (repoName repodirabs)) (descriptionOf env repodir)
            (timeCell env commit)

/-- An item that is processed without a fatal error: a category always; a
repository when its path resolves and, if it opens, the sidecar paths fit
`PATH_MAX` and the copy of the name of a resolved commit can be allocated. -/
def processedWithoutFatal (env : Env) : Item → Bool
  | .category _ => true
  | .repository repodir =>
    match env.realpath (cstr repodir) with
    | none => false
    | some repodirabs =>
      match env.repository_open (cstr repodir) with
      | none => true
      | some repo =>
        (openSidecar env repodir "description" ".git/description").isSome &&
        (openSidecar env repodir "owner" ".git/owner").isSome &&
        ((headCommit repo).isNone || env.malloc_ok (strlen (repoName repodirabs) + 1))

/-- A repository item that fails to open. -/
def failsToOpen (env : Env) : Item → Bool
  | .category _ => false
  | .repository repodir => (env.repository_open (cstr repodir)).isNone

/-- What the process shows of a loop result: `main` adds the footer and
returns `ret` when the loop ran to its end. -/
def Run.toOutcome : Run → Outcome
  | .fatal out => .fatal out
  | .finished st => .exit st.ret (st.out ++ writefooter)

/-! ## A concrete environment -/

/-- A repository whose head resolves to a commit authored at time 0. -/
def exampleRepo : Repository :=
  { revwalk_next := some 1
    commit_lookup := fun id => if id = 1 then some { author := some { when := 0 } } else none }

/-- A repository without any commit: the walk yields nothing. -/
def newRepo : Repository :=
  { revwalk_next := none, commit_lookup := fun _ => none }

/-- An environment with the repositories `example.git` (description file
`hello\n`) and `new` (no commit, no sidecar file), a directory `plain` that is
not a repository, and nothing else. -/
def exampleEnv : Env :=
  { PATH_MAX := 4096
    realpath := fun p =>
      if p = lit "example.git" then some (lit "/srv/repos/example.git")
      else if p = lit "new" then some (lit "/srv/repos/new")
      else if p = lit "plain" then some (lit "/srv/plain")
      else none
    repository_open := fun p =>
      if p = lit "example.git" then some exampleRepo
      else if p = lit "new" then some newRepo
      else none
    fopen := fun p => if p = lit "example.git/description" then some (lit "hello\n") else none
    gmtime := fun t =>
      if t = 0 then some { tm_year := 70, tm_mon := 0, tm_mday := 1, tm_hour := 0, tm_min := 0 }
      else none
    strftime := fun _ => lit "1970-01-01 00:00"
    malloc_ok := fun _ => true }

/-! ## String literals and the hexadecimal table, evaluated -/

theorem lit_lt : lit "&lt;" = [38, 108, 116, 59] := by decide
theorem lit_gt : lit "&gt;" = [38, 103, 116, 59] := by decide
theorem lit_apos : lit "&#39;" = [38, 35, 51, 57, 59] := by decide
theorem lit_amp : lit "&amp;" = [38, 97, 109, 112, 59] := by decide
theorem lit_quot : lit "&quot;" = [38, 113, 117, 111, 116, 59] := by decide
theorem lit_slash : lit "/" = [47] := by decide
theorem lit_empty : lit "" = [] := by decide
theorem lit_dotgit : lit ".git" = [46, 103, 105, 116] := by decide

theorem tab_eq : tab = [48, 49, 50, 51, 52, 53, 54, 55, 56, 57, 65, 66, 67, 68, 69, 70] := by
  decide

theorem tab_getD_eq : ∀ n, n < 16 → tab.getD n 0 = upperHexDigit n := by
  rw [tab_eq]; decide

theorem hexValue_upperHexDigit : ∀ n, n < 16 → hexValue (upperHexDigit n) = some n := by
  decide

theorem upperHexDigit_range : ∀ n, n < 16 →
    (48 ≤ (upperHexDigit n).val ∧ (upperHexDigit n).val ≤ 57) ∨
    (65 ≤ (upperHexDigit n).val ∧ (upperHexDigit n).val ≤ 70) := by
  decide

theorem nibbles (n : Nat) (h : n < 256) :
    (n >>> 4) &&& 0x0f = n / 16 ∧ n &&& 0x0f = n % 16 := by
  have h1 : ∀ m, m &&& 0x0f = m % 16 := fun m => Nat.and_pow_two_sub_one_eq_mod m 4
  rw [h1, h1, Nat.shiftRight_eq_div_pow]
  constructor
  · norm_num; omega
  · rfl

/-! ## The encoders, byte by byte -/

theorem percentencode_cons (b : Byte) (s : List Byte) (len : Nat) (hb : b ≠ 0) :
    percentencode (b :: s) (len + 1) = percentencodeByte b ++ percentencode s len := by
  simp [percentencode, hb]

theorem xmlencode_cons (b : Byte) (s : List Byte) (len : Nat) (hb : b ≠ 0) :
    xmlencode (b :: s) (len + 1) = xmlencodeByte b ++ xmlencode s len := by
  simp [xmlencode, hb]

/-- Output of the loop: nothing, or the encoding of the first byte followed
by the output for the rest. -/
theorem percentencode_cases (s : List Byte) (len : Nat) :
    percentencode s len = [] ∨
      ∃ b t n, s = b :: t ∧ len = n + 1 ∧ b ≠ 0 ∧
        percentencode s len = percentencodeByte b ++ percentencode t n := by
  cases s with
  | nil => left; simp [percentencode]
  | cons b t =>
    by_cases hb : b = 0
    · left; simp [percentencode, hb]
    · cases len with
      | zero => left; simp [percentencode, hb]
      | succ n => right; exact ⟨b, t, n, rfl, rfl, hb, percentencode_cons b t n hb⟩

theorem xmlencode_cases (s : List Byte) (len : Nat) :
    xmlencode s len = [] ∨
      ∃ b t n, s = b :: t ∧ len = n + 1 ∧ b ≠ 0 ∧
        xmlencode s len = xmlencodeByte b ++ xmlencode t n := by
  cases s with
  | nil => left; simp [xmlencode]
  | cons b t =>
    by_cases hb : b = 0
    · left; simp [xmlencode, hb]
    · cases len with
      | zero => left; simp [xmlencode, hb]
      | succ n => right; exact ⟨b, t, n, rfl, rfl, hb, xmlencode_cons b t n hb⟩

theorem copiedVerbatim_iff (b : Byte) :
    copiedVerbatim b ↔
      ¬ (b.val < 47 ∨ b.val ≥ 127 ∨ (b.val ≥ 58 ∧ b.val ≤ 64) ∨ b.val = 91 ∨ b.val = 93) := by
  unfold copiedVerbatim
  simp only [Fin.ext_iff]
  have e1 : ((47 : Byte) : Nat) = 47 := rfl
  have e2 : ((92 : Byte) : Nat) = 92 := rfl
  have e3 : ((94 : Byte) : Nat) = 94 := rfl
  have e4 : ((95 : Byte) : Nat) = 95 := rfl
  have e5 : ((96 : Byte) : Nat) = 96 := rfl
  have e6 : ((123 : Byte) : Nat) = 123 := rfl
  have e7 : ((124 : Byte) : Nat) = 124 := rfl
  have e8 : ((125 : Byte) : Nat) = 125 := rfl
  have e9 : ((126 : Byte) : Nat) = 126 := rfl
  rw [e1, e2, e3, e4, e5, e6, e7, e8, e9]
  have := b.isLt
  omega

theorem percentencodeByte_eq (b : Byte) :
    percentencodeByte b =
      if copiedVerbatim b then [b]
      else [37, upperHexDigit (b.val / 16), upperHexDigit (b.val % 16)] := by
  have hn := nibbles b.val b.isLt
  have h1 : b.val / 16 < 16 := by have := b.isLt; omega
  have h2 : b.val % 16 < 16 := by omega
  unfold percentencodeByte
  rw [hn.1, hn.2, tab_getD_eq _ h1, tab_getD_eq _ h2]
  by_cases h : copiedVerbatim b
  · rw [if_pos h, if_neg ((copiedVerbatim_iff b).1 h)]
  · rw [if_neg h, if_pos (by
      by_contra hc
      exact h ((copiedVerbatim_iff b).2 hc))]

theorem byte_ne_iff (x : Byte) (n : Nat) (hn : n < 256) : x ≠ Fin.ofNat n ↔ x.val ≠ n := by
  rw [Ne, Fin.ext_iff]
  simp [Fin.ofNat, Nat.mod_eq_of_lt hn]

theorem percentencodeByte_safe (b x : Byte) (hx : x ∈ percentencodeByte b) :
    x ≠ 34 ∧ x ≠ 39 ∧ x ≠ 60 ∧ x ≠ 62 ∧ x ≠ 38 ∧ x ≠ 32 ∧ 0x20 ≤ x.val ∧ x.val ≠ 0x7F
      ∧ x.val ≤ 0x7E := by
  have key : x.val ≠ 34 ∧ x.val ≠ 39 ∧ x.val ≠ 60 ∧ x.val ≠ 62 ∧ x.val ≠ 38 ∧ x.val ≠ 32
      ∧ 0x20 ≤ x.val ∧ x.val ≠ 0x7F ∧ x.val ≤ 0x7E := by
    rw [percentencodeByte_eq] at hx
    have h1 : b.val / 16 < 16 := by have := b.isLt; omega
    have h2 : b.val % 16 < 16 := by omega
    by_cases h : copiedVerbatim b
    · rw [if_pos h] at hx
      have hxb : x = b := by simpa using hx
      subst hxb
      have hc := (copiedVerbatim_iff x).1 h
      omega
    · rw [if_neg h] at hx
      have hx3 : x = 37 ∨ x = upperHexDigit (b.val / 16) ∨ x = upperHexDigit (b.val % 16) := by
        simpa using hx
      rcases hx3 with rfl | rfl | rfl
      · decide
      · have := upperHexDigit_range _ h1; omega
      · have := upperHexDigit_range _ h2; omega
  obtain ⟨k1, k2, k3, k4, k5, k6, k7⟩ := key
  refine ⟨?_, ?_, ?_, ?_, ?_, ?_, k7⟩
  · exact (byte_ne_iff x 34 (by omega)).2 k1
  · exact (byte_ne_iff x 39 (by omega)).2 k2
  · exact (byte_ne_iff x 60 (by omega)).2 k3
  · exact (byte_ne_iff x 62 (by omega)).2 k4
  · exact (byte_ne_iff x 38 (by omega)).2 k5
  · exact (byte_ne_iff x 32 (by omega)).2 k6

theorem percentencode_mem_safe (s : List Byte) :
    ∀ len b, b ∈ percentencode s len →
      b ≠ 34 ∧ b ≠ 39 ∧ b ≠ 60 ∧ b ≠ 62 ∧ b ≠ 38 ∧ b ≠ 32 ∧ 0x20 ≤ b.val ∧ b.val ≠ 0x7F
        ∧ b.val ≤ 0x7E := by
  induction s with
  | nil => intro len b hb; simp [percentencode] at hb
  | cons c t ih =>
    intro len b hb
    rcases percentencode_cases (c :: t) len with h | ⟨c', t', n, hs, _, _, h⟩
    · rw [h] at hb; simp at hb
    · obtain ⟨rfl, rfl⟩ := List.cons.inj hs
      rw [h, List.mem_append] at hb
      rcases hb with hb | hb
      · exact percentencodeByte_safe c b hb
      · exact ih n b hb

theorem xmlencodeByte_eq (b : Byte) :
    xmlencodeByte b =
      if b = 60 then [38, 108, 116, 59]
      else if b = 62 then [38, 103, 116, 59]
      else if b = 39 then [38, 35, 51, 57, 59]
      else if b = 38 then [38, 97, 109, 112, 59]
      else if b = 34 then [38, 113, 117, 111, 116, 59]
      else [b] := by
  unfold xmlencodeByte
  rw [lit_lt, lit_gt, lit_apos, lit_amp, lit_quot]

theorem entities_eq :
    entities = [[38, 108, 116, 59], [38, 103, 116, 59], [38, 35, 51, 57, 59],
      [38, 97, 109, 112, 59], [38, 113, 117, 111, 116, 59]] := by
  unfold entities
  rw [lit_lt, lit_gt, lit_apos, lit_amp, lit_quot]

theorem xmlencodeByte_safe (b x : Byte) (hx : x ∈ xmlencodeByte b) :
    x ≠ 60 ∧ x ≠ 62 ∧ x ≠ 39 ∧ x ≠ 34 := by
  rw [xmlencodeByte_eq] at hx
  split_ifs at hx with h1 h2 h3 h4 h5
  · simp only [List.mem_cons, List.mem_singleton, List.not_mem_nil, or_false] at hx
    rcases hx with rfl | rfl | rfl | rfl <;> decide
  · simp only [List.mem_cons, List.mem_singleton, List.not_mem_nil, or_false] at hx
    rcases hx with rfl | rfl | rfl | rfl <;> decide
  · simp only [List.mem_cons, List.mem_singleton, List.not_mem_nil, or_false] at hx
    rcases hx with rfl | rfl | rfl | rfl | rfl <;> decide
  · simp only [List.mem_cons, List.mem_singleton, List.not_mem_nil, or_false] at hx
    rcases hx with rfl | rfl | rfl | rfl | rfl <;> decide
  · simp only [List.mem_cons, List.mem_singleton, List.not_mem_nil, or_false] at hx
    rcases hx with rfl | rfl | rfl | rfl | rfl | rfl <;> decide
  · have : x = b := by simpa using hx
    subst this
    exact ⟨h1, h2, h3, h5⟩

/-- One loop step of `xmlencode` writes a whole entity, or bytes without `&`. -/
theorem xmlencodeByte_amp (b : Byte) :
    xmlencodeByte b ∈ entities ∨ (38 : Byte) ∉ xmlencodeByte b := by
  rw [xmlencodeByte_eq, entities_eq]
  split_ifs with h1 h2 h3 h4 h5
  · left; decide
  · left; decide
  · left; decide
  · left; decide
  · left; decide
  · right
    simp only [List.mem_singleton]
    exact fun h => h4 h.symm

theorem entities_amp (e : List Byte) (he : e ∈ entities) :
    ∃ t, e = 38 :: t ∧ (38 : Byte) ∉ t := by
  rw [entities_eq] at he
  simp only [List.mem_cons, List.mem_singleton, List.not_mem_nil, or_false] at he
  rcases he with rfl | rfl | rfl | rfl | rfl
  · exact ⟨[108, 116, 59], rfl, by decide⟩
  · exact ⟨[103, 116, 59], rfl, by decide⟩
  · exact ⟨[35, 51, 57, 59], rfl, by decide⟩
  · exact ⟨[97, 109, 112, 59], rfl, by decide⟩
  · exact ⟨[113, 117, 111, 116, 59], rfl, by decide⟩

theorem ampStartsEntity_append (chunk out : List Byte)
    (hc : chunk ∈ entities ∨ (38 : Byte) ∉ chunk) (ho : AmpStartsEntity out) :
    AmpStartsEntity (chunk ++ out) := by
  intro pre post h
  rcases List.append_eq_append_iff.1 h with ⟨a, hpre, hout⟩ | ⟨c, hchunk, hpost⟩
  · exact ho a post hout
  · cases c with
    | nil =>
      simp only [List.nil_append] at hpost
      exact ho [] post (by simpa using hpost.symm)
    | cons x c' =>
      obtain ⟨rfl, rfl⟩ := List.cons.inj hpost
      rcases hc with hc | hc
      · obtain ⟨t, ht, hnot⟩ := entities_amp chunk hc
        cases pre with
        | nil =>
          refine ⟨chunk, hc, ?_⟩
          rw [hchunk]
          simp
        | cons y pre' =>
          exfalso
          rw [ht] at hchunk
          obtain ⟨_, htl⟩ := List.cons.inj hchunk
          exact hnot (by rw [htl]; simp)
      · exfalso
        exact hc (by rw [hchunk]; simp)

theorem xmlencode_amp (s : List Byte) : ∀ len, AmpStartsEntity (xmlencode s len) := by
  induction s with
  | nil =>
    intro len pre post h
    simp [xmlencode] at h
  | cons c t ih =>
    intro len
    rcases xmlencode_cases (c :: t) len with h | ⟨c', t', n, hs, _, _, h⟩
    · intro pre post h'
      rw [h] at h'
      simp at h'
    · obtain ⟨rfl, rfl⟩ := List.cons.inj hs
      rw [h]
      exact ampStartsEntity_append _ _ (xmlencodeByte_amp c) (ih n)

theorem xmlencode_mem_safe (s : List Byte) :
    ∀ len b, b ∈ xmlencode s len → b ≠ 60 ∧ b ≠ 62 ∧ b ≠ 39 ∧ b ≠ 34 := by
  induction s with
  | nil => intro len b hb; simp [xmlencode] at hb
  | cons c t ih =>
    intro len b hb
    rcases xmlencode_cases (c :: t) len with h | ⟨c', t', n, hs, _, _, h⟩
    · rw [h] at hb; simp at hb
    · obtain ⟨rfl, rfl⟩ := List.cons.inj hs
      rw [h, List.mem_append] at hb
      rcases hb with hb | hb
      · exact xmlencodeByte_safe c b hb
      · exact ih n b hb

/-! ## Percent-decoding what `percentencode` wrote -/

theorem percentdecode_cons_ne (c : Byte) (rest : List Byte) (hc : c ≠ 37) :
    percentdecode (c :: rest) = c :: percentdecode rest := by
  match rest with
  | [] => simp [percentdecode]
  | [_] => simp [percentdecode]
  | _ :: _ :: _ => simp [percentdecode, hc]

theorem percentdecode_hex (h l : Byte) (x y : Nat) (rest : List Byte)
    (hx : hexValue h = some x) (hy : hexValue l = some y) :
    percentdecode (37 :: h :: l :: rest) = Fin.ofNat (16 * x + y) :: percentdecode rest := by
  simp [percentdecode, hx, hy]

theorem percentdecode_percentencodeByte (b : Byte) (rest : List Byte) :
    percentdecode (percentencodeByte b ++ rest) = b :: percentdecode rest := by
  have h1 : b.val / 16 < 16 := by have := b.isLt; omega
  have h2 : b.val % 16 < 16 := by omega
  rw [percentencodeByte_eq]
  by_cases h : copiedVerbatim b
  · rw [if_pos h]
    have hc := (copiedVerbatim_iff b).1 h
    have hne : b ≠ 37 := (byte_ne_iff b 37 (by omega)).2 (by omega)
    exact percentdecode_cons_ne b rest hne
  · rw [if_neg h]
    show percentdecode (37 :: upperHexDigit (b.val / 16) :: upperHexDigit (b.val % 16) :: rest) = _
    rw [percentdecode_hex _ _ _ _ rest (hexValue_upperHexDigit _ h1)
      (hexValue_upperHexDigit _ h2)]
    congr 1
    apply Fin.ext
    have := b.isLt
    simp only [Fin.ofNat, Fin.val_mk]
    omega

/-- The loop of `percentencode` encodes, byte by byte, the part of the first
`len` bytes that precedes the first NUL. -/
theorem percentencode_eq_flatMap (s : List Byte) :
    ∀ len, percentencode s len = (cstr (s.take len)).flatMap percentencodeByte := by
  induction s with
  | nil => intro len; simp [percentencode, cstr]
  | cons c t ih =>
    intro len
    by_cases hc : c = 0
    · cases len <;> simp [percentencode, cstr, hc]
    · cases len with
      | zero => simp [percentencode, cstr, hc]
      | succ n =>
        rw [percentencode_cons c t n hc, ih n]
        simp [cstr, hc, List.takeWhile_cons]

theorem xmlencode_eq_flatMap (s : List Byte) :
    ∀ len, xmlencode s len = (cstr (s.take len)).flatMap xmlencodeByte := by
  induction s with
  | nil => intro len; simp [xmlencode, cstr]
  | cons c t ih =>
    intro len
    by_cases hc : c = 0
    · cases len <;> simp [xmlencode, cstr, hc]
    · cases len with
      | zero => simp [xmlencode, cstr, hc]
      | succ n =>
        rw [xmlencode_cons c t n hc, ih n]
        simp [cstr, hc, List.takeWhile_cons]

theorem cstr_of_no_nul (s : List Byte) (h : ∀ b ∈ s, b ≠ 0) : cstr s = s := by
  unfold cstr
  rw [List.takeWhile_eq_self_iff]
  intro b hb
  simpa using h b hb

theorem cstr_no_nul (s : List Byte) : ∀ b ∈ cstr s, b ≠ 0 := by
  intro b hb
  have := List.mem_takeWhile_imp hb
  simpa using this

theorem percentdecode_flatMap (s : List Byte) :
    percentdecode (s.flatMap percentencodeByte) = s := by
  induction s with
  | nil => simp [percentdecode]
  | cons c t ih =>
    rw [List.flatMap_cons, percentdecode_percentencodeByte, ih]

theorem percentencodeByte_slash : percentencodeByte 47 = [47] := by decide

/-! ## Stripping the `.git` suffix -/

theorem strrchr_go_none (c : Byte) (s : List Byte) (h : c ∉ s) : strrchrGo c s = none := by
  induction s with
  | nil => rfl
  | cons x xs ih =>
    have hx : ¬ x = c := fun e => h (by simp [e])
    have hxs : c ∉ xs := fun e => h (by simp [e])
    simp [strrchrGo, ih hxs, hx]

theorem strrchr_go_last (c : Byte) (a u : List Byte) (h : c ∉ u) :
    strrchrGo c (a ++ c :: u) = some a.length := by
  induction a with
  | nil => simp [strrchrGo, strrchr_go_none c u h]
  | cons x a ih => simp [strrchrGo, ih]

theorem cstr_append_nul (a b : List Byte) (h : ∀ x ∈ a, x ≠ 0) : cstr (a ++ 0 :: b) = a := by
  unfold cstr
  induction a with
  | nil => simp
  | cons x a ih =>
    have hx : x ≠ 0 := h x (by simp)
    simp only [List.cons_append, List.takeWhile_cons, bne_iff_ne, ne_eq, hx, not_false_eq_true,
      if_true, List.cons.injEq, true_and]
    exact ih (fun y hy => h y (by simp [hy]))

theorem stripGitSuffix_eq (n : List Byte) (hn : ∀ b ∈ n, b ≠ 0) :
    stripGitSuffix n = if lit ".git" <:+ n then n.take (n.length - 4) else n := by
  have hc : cstr n = n := cstr_of_no_nul n hn
  have hgit : cstr (lit ".git") = lit ".git" := by decide
  by_cases hsuf : lit ".git" <:+ n
  · rw [if_pos hsuf]
    obtain ⟨a, ha⟩ := hsuf
    have hlast : strrchr n 46 = some a.length := by
      unfold strrchr
      rw [hc, ← ha, lit_dotgit]
      exact strrchr_go_last 46 a [103, 105, 116] (by decide)
    have hdrop : n.drop a.length = lit ".git" := by rw [← ha]; simp
    have hseq : streq (n.drop a.length) (lit ".git") = true := by
      unfold streq
      rw [hdrop]
      simp
    have ha0 : ∀ x ∈ a, x ≠ 0 := fun x hx => hn x (by rw [← ha]; simp [hx])
    have hset : n.set a.length 0 = a ++ 0 :: [103, 105, 116] := by
      rw [← ha, lit_dotgit]
      simp
    have hlen : n.length - 4 = a.length := by
      rw [← ha, lit_dotgit]; simp
    unfold stripGitSuffix
    rw [hlast]
    simp only [hseq, if_true]
    rw [hset, cstr_append_nul a _ ha0, hlen, ← ha]
    simp
  · rw [if_neg hsuf]
    unfold stripGitSuffix
    cases hp : strrchr n 46 with
    | none => rfl
    | some p =>
      simp only
      by_cases hseq : streq (n.drop p) (lit ".git") = true
      · exfalso
        apply hsuf
        have hdn : ∀ b ∈ n.drop p, b ≠ 0 := fun b hb => hn b (List.mem_of_mem_drop hb)
        unfold streq at hseq
        rw [cstr_of_no_nul _ hdn, hgit] at hseq
        have : n.drop p = lit ".git" := by simpa using hseq
        exact ⟨n.take p, by rw [← this]; exact List.take_append_drop p n⟩
      · simp [hseq]

theorem stripGitSuffix_cstr (name : List Byte) :
    stripGitSuffix (cstr name) = withoutGitSuffix name := by
  rw [stripGitSuffix_eq _ (cstr_no_nul name)]
  rfl

/-! ## The row written by `writelog` -/

theorem writelog_resolved (env : Env) (repo : Repository) (name description : List Byte)
    (id : Nat) (commit : Commit)
    (hwalk : repo.revwalk_next = some id) (hlookup : repo.commit_lookup id = some commit)
    (hmem : env.malloc_ok (strlen name + 1) = true) :
    writelog env repo name description =
      some (repoRow (withoutGitSuffix name) description
        (match commit.author with
          | some author => printtimeshort env author.when
          | none => []), 0) := by
  unfold writelog
  simp only [hwalk, hlookup, strdup, hmem, if_true]
  rw [stripGitSuffix_cstr]
  cases commit.author <;> simp [repoRow, List.append_assoc]

theorem writelog_unresolved (env : Env) (repo : Repository) (name description : List Byte)
    (h : repo.revwalk_next = none ∨
      ∃ id, repo.revwalk_next = some id ∧ repo.commit_lookup id = none) :
    writelog env repo name description = some ([], -1) := by
  unfold writelog
  rcases h with h | ⟨id, h1, h2⟩
  · simp [h]
  · simp [h1, h2]

/-- Whatever `writelog` writes is nothing or one repository row. -/
theorem writelog_row_cases (env : Env) (repo : Repository) (name description row : List Byte)
    (ret : Int) (h : writelog env repo name description = some (row, ret)) :
    row = [] ∨ ∃ time, row = repoRow (withoutGitSuffix name) description time := by
  cases hw : repo.revwalk_next with
  | none =>
    rw [writelog_unresolved env repo name description (Or.inl hw)] at h
    left
    simpa using (Prod.mk.inj (Option.some.inj h)).1.symm
  | some id =>
    cases hl : repo.commit_lookup id with
    | none =>
      rw [writelog_unresolved env repo name description (Or.inr ⟨id, hw, hl⟩)] at h
      left
      simpa using (Prod.mk.inj (Option.some.inj h)).1.symm
    | some commit =>
      by_cases hm : env.malloc_ok (strlen name + 1) = true
      · rw [writelog_resolved env repo name description id commit hw hl hm] at h
        right
        exact ⟨_, (Prod.mk.inj (Option.some.inj h)).1.symm⟩
      · exfalso
        unfold writelog at h
        simp [hw, hl, strdup, hm] at h

/-! ## The path joiner -/

theorem joinpath_formatted (path path2 : List Byte) :
    cstr path ++ (if cstr path ≠ [] ∧ (cstr path).getLast? ≠ some 47 then lit "/" else lit "")
      ++ cstr path2 = joined path path2 := by
  unfold joined
  rw [lit_slash, lit_empty]
  by_cases h : cstr path = [] ∨ (cstr path).getLast? = some 47
  · rw [if_pos h, if_neg (by tauto)]
  · rw [if_neg h, if_pos (by tauto)]

theorem joinpath_eq (bufsiz : Nat) (path path2 : List Byte) :
    joinpath bufsiz path path2 =
      if (joined path path2).length < bufsiz ∧ (joined path path2).length ≤ INT_MAX
      then some (joined path path2) else none := by
  unfold joinpath
  simp only [joinpath_formatted]
  unfold snprintfRet
  by_cases hbig : (joined path path2).length > INT_MAX
  · rw [if_pos hbig, if_pos (Or.inl (by decide)), if_neg (by omega)]
  · rw [if_neg hbig]
    by_cases hfit : (joined path path2).length < bufsiz
    · rw [if_neg (by simp only [Int.toNat_ofNat]; omega), if_pos ⟨hfit, by omega⟩,
        List.take_of_length_le (by omega)]
    · rw [if_pos (Or.inr (by simp only [Int.toNat_ofNat]; omega)), if_neg (by omega)]

/-! ## Reading a sidecar file -/

theorem cstr_set_zero (buf : List Byte) : cstr (buf.set 0 0) = [] := by
  cases buf <;> simp [cstr]

theorem cstr_append_nul_left (a b : List Byte) : cstr (a ++ 0 :: b) = cstr a := by
  unfold cstr
  induction a with
  | nil => simp
  | cons x a ih =>
    by_cases hx : x = 0
    · simp [hx]
    · simp [List.takeWhile_cons, hx, ih]

theorem cstr_append_dropWhile (buf : List Byte) :
    buf = cstr buf ++ buf.dropWhile (fun b => b != 0) := by
  unfold cstr
  exact (List.takeWhile_append_dropWhile _ buf).symm

theorem chomp_cons (c : Byte) (s : List Byte) (hc : c ≠ 10) : chomp (c :: s) = c :: chomp s := by
  unfold chomp
  cases s with
  | nil => simp [hc]
  | cons x t =>
    have h1 : (c :: x :: t).getLast? = (x :: t).getLast? := by simp [List.getLast?_cons_cons]
    rw [h1]
    by_cases h : (x :: t).getLast? = some 10
    · rw [if_pos h, if_pos h]; simp
    · rw [if_neg h, if_neg h]

theorem getD_append_cons (a d : List Byte) (z : Byte) : (a ++ z :: d).getD a.length 0 = z := by
  induction a with
  | nil => simp
  | cons x a ih => simpa using ih

/-- Lines 220-222 on any buffer: the string left is the old one without its
final newline. -/
theorem strip_buffer (buf : List Byte) :
    cstr (if strlen buf > 0 ∧ buf.getD (strlen buf - 1) 0 = 10
        then buf.set (strlen buf - 1) 0 else buf) = chomp (cstr buf) := by
  have hsplit := cstr_append_dropWhile buf
  have hnul := cstr_no_nul buf
  unfold strlen chomp
  generalize hD : buf.dropWhile (fun b => b != 0) = D at hsplit
  generalize hP : cstr buf = P at hsplit hnul
  rcases List.eq_nil_or_concat P with h | ⟨P', z, h⟩
  · subst h
    simp [hP]
  · rw [List.concat_eq_append] at h
    subst h
    have hP' : ∀ x ∈ P', x ≠ 0 := fun x hx => hnul x (by simp [hx])
    have hbuf : buf = P' ++ z :: D := by rw [hsplit]; simp
    have hget : buf.getD (P'.length) 0 = z := by
      rw [hbuf]; exact getD_append_cons P' D z
    have hlen : (P' ++ [z]).length - 1 = P'.length := by simp
    have hpos : (P' ++ [z]).length > 0 := by simp
    have hlast : (P' ++ [z]).getLast? = some z := by simp
    rw [hlen, hget, hlast]
    by_cases hz : z = 10
    · rw [if_pos ⟨hpos, hz⟩, if_pos (by rw [hz])]
      have hset : buf.set P'.length 0 = P' ++ 0 :: D := by
        rw [hbuf]; simp
      rw [hset, cstr_append_nul P' D hP']
      simp
    · rw [if_neg (fun h => hz h.2), if_neg (fun h => hz (Option.some.inj h)), hP]

/-- Line 236 on any buffer: the string left is the old one up to its first
newline. -/
theorem cut_buffer (buf : List Byte) :
    cstr (buf.set (strcspnNewline buf) 0) = (cstr buf).takeWhile (fun b => b != 10) := by
  have hsplit := cstr_append_dropWhile buf
  have hnul := cstr_no_nul buf
  unfold strcspnNewline
  generalize hD : buf.dropWhile (fun b => b != 0) = D at hsplit
  generalize hP : cstr buf = P at hsplit hnul
  have hPsplit := (List.takeWhile_append_dropWhile (fun b => b != 10) P).symm
  generalize hQ : P.takeWhile (fun b => b != 10) = Q at hPsplit
  generalize hQ' : P.dropWhile (fun b => b != 10) = Q' at hPsplit
  have hQnul : ∀ x ∈ Q, x ≠ 0 := fun x hx => hnul x (by rw [hPsplit]; simp [hx])
  have hbuf : buf = Q ++ (Q' ++ D) := by rw [hsplit, hPsplit, List.append_assoc]
  cases hR : Q' ++ D with
  | nil =>
    rw [hR] at hbuf
    rw [hbuf]
    simp only [List.append_nil]
    rw [List.set_eq_of_length_le (le_refl _)]
    exact cstr_of_no_nul Q hQnul
  | cons y R =>
    rw [hR] at hbuf
    rw [hbuf]
    have : (Q ++ y :: R).set Q.length 0 = Q ++ 0 :: R := by simp
    rw [this, cstr_append_nul Q R hQnul]

theorem chomp_fgetsLine (n : Nat) (data : List Byte) :
    chomp (cstr (fgetsLine n data)) = cstr ((data.takeWhile (fun b => b != 10)).take n) := by
  induction data generalizing n with
  | nil => cases n <;> simp [fgetsLine, cstr, chomp]
  | cons c t ih =>
    cases n with
    | zero => simp [fgetsLine, cstr, chomp]
    | succ n =>
      by_cases h10 : c = 10
      · subst h10
        simp [fgetsLine, cstr, chomp]
      · by_cases h0 : c = 0
        · subst h0
          simp [fgetsLine, cstr, chomp, h10]
        · have e1 : cstr (fgetsLine (n + 1) (c :: t)) = c :: cstr (fgetsLine n t) := by
            simp [fgetsLine, cstr, h10, h0, List.takeWhile_cons]
          have e2 : cstr (((c :: t).takeWhile (fun b => b != 10)).take (n + 1))
              = c :: cstr ((t.takeWhile (fun b => b != 10)).take n) := by
            simp [cstr, h10, h0, List.takeWhile_cons]
          rw [e1, e2, chomp_cons c _ h10, ih n]

theorem cut_fgetsLine (n : Nat) (data : List Byte) :
    (cstr (fgetsLine n data)).takeWhile (fun b => b != 10)
      = cstr ((data.takeWhile (fun b => b != 10)).take n) := by
  induction data generalizing n with
  | nil => cases n <;> simp [fgetsLine, cstr]
  | cons c t ih =>
    cases n with
    | zero => simp [fgetsLine, cstr]
    | succ n =>
      by_cases h10 : c = 10
      · subst h10
        simp [fgetsLine, cstr]
      · by_cases h0 : c = 0
        · subst h0
          simp [fgetsLine, cstr, h10]
        · have e1 : cstr (fgetsLine (n + 1) (c :: t)) = c :: cstr (fgetsLine n t) := by
            simp [fgetsLine, cstr, h10, h0, List.takeWhile_cons]
          have e2 : cstr (((c :: t).takeWhile (fun b => b != 10)).take (n + 1))
              = c :: cstr ((t.takeWhile (fun b => b != 10)).take n) := by
            simp [cstr, h10, h0, List.takeWhile_cons]
          rw [e1, e2, List.takeWhile_cons]
          simp [h10, ih n]

/-- The string in the buffer after `fgets`, or that nothing was read. -/
theorem fgets_cases (buf data : List Byte) :
    (fgets buf 255 data = none ∧ data = []) ∨
      ∃ d, fgets buf 255 data = some d ∧ cstr d = cstr (fgetsLine 254 data) := by
  unfold fgets
  by_cases hd : data = []
  · left; simp [hd]
  · right
    simp only [hd, if_false]
    exact ⟨_, rfl, cstr_append_nul_left _ _⟩

theorem readDescription_some (old data : List Byte) :
    cstr (readDescription old (some data)) = cstr (firstLine data) := by
  unfold readDescription
  simp only
  rcases fgets_cases (old.set 0 0) data with ⟨h, hd⟩ | ⟨d, h, hc⟩
  · rw [h]
    simp only
    rw [strip_buffer, cstr_set_zero, hd]
    simp [chomp, firstLine, cstr]
  · rw [h]
    simp only
    rw [strip_buffer, hc, chomp_fgetsLine]
    rfl

theorem readDescription_none (old : List Byte) : cstr (readDescription old none) = [] := by
  unfold readDescription
  exact cstr_set_zero old

theorem readOwner_some (old data : List Byte) :
    cstr (readOwner old (some data)) = cstr (firstLine data) := by
  unfold readOwner
  simp only
  rcases fgets_cases (old.set 0 0) data with ⟨h, hd⟩ | ⟨d, h, hc⟩
  · rw [h]
    simp only
    rw [cut_buffer, cstr_set_zero, hd]
    simp [firstLine, cstr]
  · rw [h]
    simp only
    rw [cut_buffer, hc, cut_fgetsLine]
    rfl

theorem readOwner_none (old : List Byte) : cstr (readOwner old none) = [] := by
  unfold readOwner
  exact cstr_set_zero old

/-! ## The loop of `main` -/

theorem mainLoop_nil (env : Env) (st : State) : mainLoop env [] st = .finished st := by
  simp [mainLoop]

theorem mainLoop_category (env : Env) (arg label : List Byte) (rest : List (List Byte))
    (st : State) (h : streq arg (lit "-c") = true) :
    mainLoop env (arg :: label :: rest) st
      = mainLoop env rest { st with out := st.out ++ writecategory label } := by
  simp [mainLoop, h]

theorem mainLoop_category_missing (env : Env) (arg : List Byte) (st : State)
    (h : streq arg (lit "-c") = true) : mainLoop env [arg] st = .fatal st.out := by
  simp [mainLoop, h]

theorem mainLoop_repo_fatal (env : Env) (arg : List Byte) (rest : List (List Byte))
    (st : State) (out : List Byte) (h : streq arg (lit "-c") = false)
    (hp : processRepo env arg st = .fatal out) :
    mainLoop env (arg :: rest) st = .fatal out := by
  cases rest <;> simp [mainLoop, h, hp]

theorem mainLoop_repo_finished (env : Env) (arg : List Byte) (rest : List (List Byte))
    (st st1 : State) (h : streq arg (lit "-c") = false)
    (hp : processRepo env arg st = .finished st1) :
    mainLoop env (arg :: rest) st = mainLoop env rest st1 := by
  cases rest <;> simp [mainLoop, h, hp]

theorem processRepo_realpath_none (env : Env) (repodir : List Byte) (st : State)
    (h : env.realpath (cstr repodir) = none) : processRepo env repodir st = .fatal st.out := by
  simp [processRepo, h]

/-! ### What `writelog` writes, by the head commit -/

theorem headCommit_none (repo : Repository) (h : headCommit repo = none) :
    repo.revwalk_next = none ∨
      ∃ id, repo.revwalk_next = some id ∧ repo.commit_lookup id = none := by
  unfold headCommit at h
  cases hw : repo.revwalk_next with
  | none => exact Or.inl rfl
  | some id =>
    rw [hw] at h
    exact Or.inr ⟨id, rfl, h⟩

theorem headCommit_some (repo : Repository) (commit : Commit)
    (h : headCommit repo = some commit) :
    ∃ id, repo.revwalk_next = some id ∧ repo.commit_lookup id = some commit := by
  unfold headCommit at h
  cases hw : repo.revwalk_next with
  | none => rw [hw] at h; cases h
  | some id =>
    rw [hw] at h
    exact ⟨id, rfl, h⟩

theorem writelog_head_none (env : Env) (repo : Repository) (name description : List Byte)
    (h : headCommit repo = none) : writelog env repo name description = some ([], -1) :=
  writelog_unresolved env repo name description (headCommit_none repo h)

theorem writelog_head_some (env : Env) (repo : Repository) (name description : List Byte)
    (commit : Commit) (h : headCommit repo = some commit)
    (hmem : env.malloc_ok (strlen name + 1) = true) :
    writelog env repo name description
      = some (repoRow (withoutGitSuffix name) description (timeCell env commit), 0) := by
  obtain ⟨id, hw, hl⟩ := headCommit_some repo commit h
  rw [writelog_resolved env repo name description id commit hw hl hmem]
  unfold timeCell
  cases commit.author <;> rfl

theorem writelog_head_some_nomem (env : Env) (repo : Repository) (name description : List Byte)
    (commit : Commit) (h : headCommit repo = some commit)
    (hmem : env.malloc_ok (strlen name + 1) = false) :
    writelog env repo name description = none := by
  obtain ⟨id, hw, hl⟩ := headCommit_some repo commit h
  unfold writelog
  simp [hw, hl, strdup, hmem]

/-! ### The description buffer only matters through its C string -/

theorem take_strlen (d : List Byte) : d.take (strlen d) = cstr d := by
  unfold strlen
  have h := cstr_append_dropWhile d
  generalize cstr d = P at h ⊢
  generalize d.dropWhile (fun b => b != 0) = D at h
  rw [h]
  simp

theorem xmlencode_strlen (d : List Byte) :
    xmlencode d (strlen d) = (cstr d).flatMap xmlencodeByte := by
  rw [xmlencode_eq_flatMap, take_strlen, cstr_of_no_nul _ (cstr_no_nul d)]

theorem repoRow_congr (s d1 d2 t : List Byte) (h : cstr d1 = cstr d2) :
    repoRow s d1 t = repoRow s d2 t := by
  unfold repoRow
  rw [xmlencode_strlen d1, xmlencode_strlen d2, h]

theorem cstr_readDescription (env : Env) (repodir old : List Byte) (fp : Option (List Byte))
    (h : openSidecar env repodir "description" ".git/description" = some fp) :
    cstr (readDescription old fp) = descriptionOf env repodir := by
  unfold descriptionOf
  rw [h]
  cases fp with
  | none => exact readDescription_none old
  | some data =>
    rw [readDescription_some]

theorem cstr_descriptionOf (env : Env) (repodir : List Byte) :
    cstr (descriptionOf env repodir) = descriptionOf env repodir := by
  unfold descriptionOf
  split
  · exact cstr_of_no_nul _ (cstr_no_nul _)
  · rfl

/-! ### The body of the loop for a repository argument -/

/-- The body of the loop for a repository argument, from the item and the
environment alone: it ends the process exactly when the item is not processed
without fatal error, and otherwise appends the row of the item and sets `ret`
to 1 exactly when the repository failed to open. -/
theorem processRepo_exact (env : Env) (repodir : List Byte) (st : State) :
    (processedWithoutFatal env (.repository repodir) = false ∧
      processRepo env repodir st = .fatal st.out) ∨
    (processedWithoutFatal env (.repository repodir) = true ∧
      ∃ description owner, processRepo env repodir st = .finished
        { out := st.out ++ expectedRow env (.repository repodir),
          ret := if failsToOpen env (.repository repodir) then 1 else st.ret,
          description := description, owner := owner }) := by
  cases hr : env.realpath (cstr repodir) with
  | none =>
    left
    exact ⟨by simp [processedWithoutFatal, hr], by simp [processRepo, hr]⟩
  | some repodirabs =>
    cases ho : env.repository_open (cstr repodir) with
    | none =>
      right
      refine ⟨by simp [processedWithoutFatal, hr, ho], st.description, st.owner, ?_⟩
      simp [processRepo, hr, ho, expectedRow, failsToOpen]
    | some repo =>
      cases h1 : openSidecar env repodir "description" ".git/description" with
      | none =>
        left
        exact ⟨by simp [processedWithoutFatal, hr, ho, h1], by simp [processRepo, hr, ho, h1]⟩
      | some fp =>
        cases h2 : openSidecar env repodir "owner" ".git/owner" with
        | none =>
          left
          exact ⟨by simp [processedWithoutFatal, hr, ho, h1, h2],
            by simp [processRepo, hr, ho, h1, h2]⟩
        | some fp2 =>
          cases hh : headCommit repo with
          | none =>
            right
            refine ⟨by simp [processedWithoutFatal, hr, ho, h1, h2, hh],
              readDescription st.description fp, readOwner st.owner fp2, ?_⟩
            have hw := writelog_head_none env repo (repoName repodirabs)
              (readDescription st.description fp) hh
            simp [processRepo, hr, ho, h1, h2, hw, expectedRow, failsToOpen, hh]
          | some commit =>
            cases hm : env.malloc_ok (strlen (repoName repodirabs) + 1) with
            | false =>
              left
              have hw := writelog_head_some_nomem env repo (repoName repodirabs)
                (readDescription st.description fp) commit hh hm
              exact ⟨by simp [processedWithoutFatal, hr, ho, h1, h2, hh, hm],
                by simp [processRepo, hr, ho, h1, h2, hw]⟩
            | true =>
              right
              refine ⟨by simp [processedWithoutFatal, hr, ho, h1, h2, hh, hm],
                readDescription st.description fp, readOwner st.owner fp2, ?_⟩
              have hw := writelog_head_some env repo (repoName repodirabs)
                (readDescription st.description fp) commit hh hm
              have hrow : repoRow (withoutGitSuffix (repoName repodirabs))
                  (readDescription st.description fp) (timeCell env commit)
                  = repoRow (withoutGitSuffix (repoName repodirabs))
                    (descriptionOf env repodir) (timeCell env commit) :=
                repoRow_congr _ _ _ _ (by
                  rw [cstr_readDescription env repodir _ fp h1, cstr_descriptionOf])
              simp [processRepo, hr, ho, h1, h2, hw, expectedRow, failsToOpen, hh, hrow]

theorem parseArgs_repository (arg : List Byte) (rest : List (List Byte))
    (h : streq arg (lit "-c") = false) :
    parseArgs (arg :: rest)
      = (parseArgs rest).map (fun items => Item.repository arg :: items) := by
  cases rest <;> simp [parseArgs, h]

theorem parseArgs_category (arg label : List Byte) (rest : List (List Byte))
    (h : streq arg (lit "-c") = true) :
    parseArgs (arg :: label :: rest)
      = (parseArgs rest).map (fun items => Item.category label :: items) := by
  simp [parseArgs, h]

theorem parseArgs_category_missing (arg : List Byte) (h : streq arg (lit "-c") = true) :
    parseArgs [arg] = none := by
  simp [parseArgs, h]

/-- The flag "some repository failed to open", one item at a time. -/
theorem any_failsToOpen_cons (env : Env) (it : Item) (items : List Item) (r : Int) :
    (if (it :: items).any (failsToOpen env) then (1 : Int) else r)
      = if items.any (failsToOpen env) then 1 else (if failsToOpen env it then 1 else r) := by
  cases h1 : failsToOpen env it <;> cases h2 : items.any (failsToOpen env) <;> simp [h1, h2]

/-- A loop that runs to its end: the arguments parse into items, every item is
processed without fatal error, the output grew by the rows of the items in
order, and `ret` is 1 exactly when it was or some repository failed to open. -/
theorem mainLoop_finished (env : Env) :
    ∀ (n : Nat) (args : List (List Byte)) (st st1 : State), args.length ≤ n →
      mainLoop env args st = .finished st1 →
      ∃ items, parseArgs args = some items ∧
        (∀ it ∈ items, processedWithoutFatal env it = true) ∧
        st1.out = st.out ++ (items.map (expectedRow env)).flatten ∧
        st1.ret = if items.any (failsToOpen env) then 1 else st.ret := by
  intro n
  induction n with
  | zero =>
    intro args st st1 hlen h
    have : args = [] := List.length_eq_zero.1 (Nat.le_zero.1 hlen)
    subst this
    rw [mainLoop_nil] at h
    cases h
    exact ⟨[], rfl, by simp, by simp, by simp⟩
  | succ n ih =>
    intro args st st1 hlen h
    cases args with
    | nil =>
      rw [mainLoop_nil] at h
      cases h
      exact ⟨[], rfl, by simp, by simp, by simp⟩
    | cons arg rest =>
      by_cases hc : streq arg (lit "-c") = true
      · cases rest with
        | nil => rw [mainLoop_category_missing env arg st hc] at h; cases h
        | cons label rest =>
          rw [mainLoop_category env arg label rest st hc] at h
          have hl : rest.length ≤ n := by simp at hlen; omega
          obtain ⟨items, hp, hok, hout, hret⟩ := ih rest _ st1 hl h
          refine ⟨Item.category label :: items, ?_, ?_, ?_, ?_⟩
          · rw [parseArgs_category arg label rest hc, hp]; rfl
          · intro it hit
            rcases List.mem_cons.1 hit with rfl | hit
            · rfl
            · exact hok it hit
          · rw [hout]
            simp [expectedRow, writecategory]
          · rw [hret, any_failsToOpen_cons]
            simp [failsToOpen]
      · have hc' : streq arg (lit "-c") = false := by simpa using hc
        rcases processRepo_exact env arg st with ⟨_, hp⟩ | ⟨hokarg, d, o, hp⟩
        · rw [mainLoop_repo_fatal env arg rest st _ hc' hp] at h; cases h
        · rw [mainLoop_repo_finished env arg rest st _ hc' hp] at h
          have hl : rest.length ≤ n := by simp at hlen; omega
          obtain ⟨items, hpa, hok, hout, hret⟩ := ih rest _ st1 hl h
          refine ⟨Item.repository arg :: items, ?_, ?_, ?_, ?_⟩
          · rw [parseArgs_repository arg rest hc', hpa]; rfl
          · intro it hit
            rcases List.mem_cons.1 hit with rfl | hit
            · exact hokarg
            · exact hok it hit
          · rw [hout]
            simp
          · rw [hret, any_failsToOpen_cons]

/-- Items that are all processed without fatal error: the loop runs to its end. -/
theorem mainLoop_of_processed (env : Env) :
    ∀ (n : Nat) (args : List (List Byte)) (items : List Item) (st : State), args.length ≤ n →
      parseArgs args = some items → (∀ it ∈ items, processedWithoutFatal env it = true) →
      ∃ st1, mainLoop env args st = .finished st1 := by
  intro n
  induction n with
  | zero =>
    intro args items st hlen _ _
    have : args = [] := List.length_eq_zero.1 (Nat.le_zero.1 hlen)
    subst this
    exact ⟨st, mainLoop_nil env st⟩
  | succ n ih =>
    intro args items st hlen hp hok
    cases args with
    | nil => exact ⟨st, mainLoop_nil env st⟩
    | cons arg rest =>
      by_cases hc : streq arg (lit "-c") = true
      · cases rest with
        | nil => rw [parseArgs_category_missing arg hc] at hp; cases hp
        | cons label rest =>
          rw [parseArgs_category arg label rest hc] at hp
          cases hpr : parseArgs rest with
          | none => rw [hpr] at hp; cases hp
          | some items1 =>
            rw [hpr] at hp
            simp only [Option.map_some', Option.some.injEq] at hp
            subst hp
            have hl : rest.length ≤ n := by simp at hlen; omega
            obtain ⟨st1, h1⟩ := ih rest items1 _ hl hpr
              (fun it hit => hok it (List.mem_cons_of_mem _ hit))
            exact ⟨st1, by rw [mainLoop_category env arg label rest st hc]; exact h1⟩
      · have hc' : streq arg (lit "-c") = false := by simpa using hc
        rw [parseArgs_repository arg rest hc'] at hp
        cases hpr : parseArgs rest with
        | none => rw [hpr] at hp; cases hp
        | some items1 =>
          rw [hpr] at hp
          simp only [Option.map_some', Option.some.injEq] at hp
          subst hp
          have hokarg := hok (Item.repository arg) (List.mem_cons_self _ _)
          rcases processRepo_exact env arg st with ⟨hbad, _⟩ | ⟨_, d, o, hpr1⟩
          · rw [hokarg] at hbad; cases hbad
          · have hl : rest.length ≤ n := by simp at hlen; omega
            obtain ⟨st1, h1⟩ := ih rest items1 _ hl hpr
              (fun it hit => hok it (List.mem_cons_of_mem _ hit))
            exact ⟨st1, by rw [mainLoop_repo_finished env arg rest st _ hc' hpr1]; exact h1⟩

/-- What the process shows of the loop does not depend on what the buffers
`description` and `owner` hold when the loop starts. -/
theorem mainLoop_buffers_irrelevant (env : Env) :
    ∀ (n : Nat) (args : List (List Byte)) (st1 st2 : State), args.length ≤ n →
      st1.out = st2.out → st1.ret = st2.ret →
      (mainLoop env args st1).toOutcome = (mainLoop env args st2).toOutcome := by
  intro n
  induction n with
  | zero =>
    intro args st1 st2 hlen ho hr
    have : args = [] := List.length_eq_zero.1 (Nat.le_zero.1 hlen)
    subst this
    rw [mainLoop_nil, mainLoop_nil]
    simp [Run.toOutcome, ho, hr]
  | succ n ih =>
    intro args st1 st2 hlen ho hr
    cases args with
    | nil =>
      rw [mainLoop_nil, mainLoop_nil]
      simp [Run.toOutcome, ho, hr]
    | cons arg rest =>
      by_cases hc : streq arg (lit "-c") = true
      · cases rest with
        | nil =>
          rw [mainLoop_category_missing env arg st1 hc, mainLoop_category_missing env arg st2 hc]
          simp [Run.toOutcome, ho]
        | cons label rest =>
          rw [mainLoop_category env arg label rest st1 hc,
            mainLoop_category env arg label rest st2 hc]
          have hl : rest.length ≤ n := by simp at hlen; omega
          exact ih rest _ _ hl (by simp [ho]) hr
      · have hc' : streq arg (lit "-c") = false := by simpa using hc
        have hl : rest.length ≤ n := by simp at hlen; omega
        rcases processRepo_exact env arg st1 with ⟨hb1, hp1⟩ | ⟨hk1, d1, o1, hp1⟩
        · rcases processRepo_exact env arg st2 with ⟨_, hp2⟩ | ⟨hk2, _, _, _⟩
          · rw [mainLoop_repo_fatal env arg rest st1 _ hc' hp1,
              mainLoop_repo_fatal env arg rest st2 _ hc' hp2]
            simp [Run.toOutcome, ho]
          · rw [hk2] at hb1; cases hb1
        · rcases processRepo_exact env arg st2 with ⟨hb2, _⟩ | ⟨_, d2, o2, hp2⟩
          · rw [hk1] at hb2; cases hb2
          · rw [mainLoop_repo_finished env arg rest st1 _ hc' hp1,
              mainLoop_repo_finished env arg rest st2 _ hc' hp2]
            exact ih rest _ _ hl (by simp [ho]) (by simp [hr])

/-- A loop that runs to its end over `pre` goes on with what follows. -/
theorem mainLoop_append (env : Env) (suf : List (List Byte)) :
    ∀ (n : Nat) (pre : List (List Byte)) (st st1 : State), pre.length ≤ n →
      mainLoop env pre st = .finished st1 →
      mainLoop env (pre ++ suf) st = mainLoop env suf st1 := by
  intro n
  induction n with
  | zero =>
    intro pre st st1 hlen h
    have : pre = [] := List.length_eq_zero.1 (Nat.le_zero.1 hlen)
    subst this
    rw [mainLoop_nil] at h
    cases h
    rfl
  | succ n ih =>
    intro pre st st1 hlen h
    cases pre with
    | nil =>
      rw [mainLoop_nil] at h
      cases h
      rfl
    | cons arg rest =>
      by_cases hc : streq arg (lit "-c") = true
      · cases rest with
        | nil => rw [mainLoop_category_missing env arg st hc] at h; cases h
        | cons label rest =>
          rw [mainLoop_category env arg label rest st hc] at h
          have hl : rest.length ≤ n := by simp at hlen; omega
          have := ih rest _ st1 hl h
          rw [← this]
          exact mainLoop_category env arg label (rest ++ suf) st hc
      · have hc' : streq arg (lit "-c") = false := by simpa using hc
        cases hp : processRepo env arg st with
        | fatal out => rw [mainLoop_repo_fatal env arg rest st out hc' hp] at h; cases h
        | finished st2 =>
          rw [mainLoop_repo_finished env arg rest st st2 hc' hp] at h
          have hl : rest.length ≤ n := by simp at hlen; omega
          have := ih rest st2 st1 hl h
          rw [← this]
          exact mainLoop_repo_finished env arg (rest ++ suf) st st2 hc' hp

/-! ## Markup encoder -/

/-- C1: for every buffer `s` and length `len`, the output of `xmlencode`
contains none of the bytes `<`, `>`, `'`, `"`, and every `&` in it is the first
byte of one of the five entities `&lt;`, `&gt;`, `&#39;`, `&amp;`, `&quot;`. -/
theorem xmlencode_output_escaped (s : List Byte) (len : Nat) :
    (∀ b ∈ xmlencode s len, b ≠ 60 ∧ b ≠ 62 ∧ b ≠ 39 ∧ b ≠ 34) ∧
    (∀ pre post, xmlencode s len = pre ++ 38 :: post →
      ∃ e ∈ entities, e <+: 38 :: post) :=
  ⟨xmlencode_mem_safe s len, xmlencode_amp s len⟩

theorem xmlencode_output_escaped_witness :
    xmlencode (lit "a&b<c") 5 = lit "a&amp;b&lt;c" ∧
      ((59 : Byte) ≠ 60 ∧ (59 : Byte) ≠ 62 ∧ (59 : Byte) ≠ 39 ∧ (59 : Byte) ≠ 34) ∧
      ∃ e ∈ entities, e <+: 38 :: lit "lt;c" :=
  ⟨by decide,
    (xmlencode_output_escaped (lit "a&b<c") 5).1 59 (by decide),
    (xmlencode_output_escaped (lit "a&b<c") 5).2 (lit "a&amp;b") (lit "lt;c") (by decide)⟩

/-! ## Percent encoder -/

/-- C2 as stated fails: on the four bytes `a`, NUL, `/`, `b` with `len = 4` the
loop stops at the NUL, so decoding the output gives `a` alone and the `/` of
the input is not copied. -/
theorem percentencode_stops_at_nul :
    percentencode [97, 0, 47, 98] 4 = [97] ∧
    percentdecode (percentencode [97, 0, 47, 98] 4) ≠ [97, 0, 47, 98] ∧
    (47 : Byte) ∉ percentencode [97, 0, 47, 98] 4 := by
  decide

/-- C2, amended: for every byte sequence `s` without a NUL byte (and `len` its
length), percent-decoding the output of `percentencode` gives back `s`, and
every `/` of `s` is copied unencoded: around any `/` the output is the output
for what precedes, the byte `/`, and the output for what follows. -/
theorem percentencode_roundtrip (s : List Byte) (h : ∀ b ∈ s, b ≠ 0) :
    percentdecode (percentencode s s.length) = s ∧
    ∀ a b, s = a ++ 47 :: b →
      percentencode s s.length
        = percentencode a a.length ++ 47 :: percentencode b b.length := by
  have hs : ∀ t : List Byte, (∀ b ∈ t, b ≠ 0) →
      percentencode t t.length = t.flatMap percentencodeByte := by
    intro t ht
    rw [percentencode_eq_flatMap, List.take_length, cstr_of_no_nul t ht]
  refine ⟨by rw [hs s h, percentdecode_flatMap], ?_⟩
  intro a b hab
  have ha : ∀ x ∈ a, x ≠ 0 := fun x hx => h x (by rw [hab]; simp [hx])
  have hb : ∀ x ∈ b, x ≠ 0 := fun x hx => h x (by rw [hab]; simp [hx])
  rw [hs s h, hs a ha, hs b hb, hab, List.flatMap_append, List.flatMap_cons,
    percentencodeByte_slash]
  rfl

theorem percentencode_roundtrip_witness :
    percentdecode (percentencode (lit "a-b/c d") (lit "a-b/c d").length) = lit "a-b/c d" ∧
    percentencode (lit "a-b/c d") (lit "a-b/c d").length
      = percentencode (lit "a-b") (lit "a-b").length
        ++ 47 :: percentencode (lit "c d") (lit "c d").length :=
  ⟨(percentencode_roundtrip (lit "a-b/c d") (by decide!)).1,
    (percentencode_roundtrip (lit "a-b/c d") (by decide!)).2 (lit "a-b") (lit "c d")
      (by decide)⟩

/-- C3 as stated fails: `-` and `.` are written as `%2D` and `%2E`, not
verbatim, and `^` is written verbatim, not as `%5E`. -/
theorem percentencode_hyphen_dot_caret :
    percentencode (lit "-") 1 = lit "%2D" ∧ percentencode (lit "-") 1 ≠ lit "-" ∧
    percentencode (lit ".") 1 = lit "%2E" ∧ percentencode (lit ".") 1 ≠ lit "." ∧
    percentencode (lit "^") 1 = lit "^" ∧ percentencode (lit "^") 1 ≠ lit "%5E" := by
  decide

/-- C3, amended: a byte `b` processed by `percentencode` is written verbatim
when it is `/`, an ASCII digit, an ASCII letter or one of
`\ ^ _ backquote { | } ~`; every other byte, `-` and `.` included, is written
as `%`, `H`, `L` with `H` and `L` the uppercase hexadecimal digits of its high
and low nibble. -/
theorem percentencode_byte_classes (b : Byte) (s : List Byte) (len : Nat) (hb : b ≠ 0) :
    percentencode (b :: s) (len + 1) =
      (if b = 47 ∨ (48 ≤ b.val ∧ b.val ≤ 57) ∨ (65 ≤ b.val ∧ b.val ≤ 90)
          ∨ (97 ≤ b.val ∧ b.val ≤ 122)
          ∨ b = 92 ∨ b = 94 ∨ b = 95 ∨ b = 96 ∨ b = 123 ∨ b = 124 ∨ b = 125 ∨ b = 126
        then [b]
        else [37, upperHexDigit (b.val / 16), upperHexDigit (b.val % 16)])
      ++ percentencode s len := by
  rw [percentencode_cons b s len hb, percentencodeByte_eq]
  rfl

theorem percentencode_byte_classes_witness :
    percentencode (lit " /") 2 = [37, upperHexDigit 2, upperHexDigit 0] ++ [47] := by
  have h1 := percentencode_byte_classes 32 (lit "/") 1 (by decide)
  have h2 := percentencode_byte_classes 47 [] 0 (by decide)
  exact h1.trans (by rw [show lit "/" = [47] from lit_slash, h2]; decide)

/-- C10: the output of `percentencode` contains no `"`, `'`, `<`, `>`, `&` or
space, no control byte and no byte above `0x7E`; so in a row written by
`writelog` the value of the `href` attribute, up to the closing `/">`,
contains no quote, no `<`, no `>` and no `&`. -/
theorem percentencode_output_attribute_safe :
    (∀ (s : List Byte) (len : Nat), ∀ b ∈ percentencode s len,
      b ≠ 34 ∧ b ≠ 39 ∧ b ≠ 60 ∧ b ≠ 62 ∧ b ≠ 38 ∧ b ≠ 32 ∧ 0x20 ≤ b.val ∧ b.val ≠ 0x7F
        ∧ b.val ≤ 0x7E) ∧
    (∀ (env : Env) (repo : Repository) (name description row : List Byte) (ret : Int),
      writelog env repo name description = some (row, ret) →
      row = [] ∨ ∃ href rest,
        row = lit "<tr class=\"repo\"><td><a href=\"" ++ href ++ lit "/\">" ++ rest ∧
        ∀ b ∈ href, b ≠ 34 ∧ b ≠ 39 ∧ b ≠ 60 ∧ b ≠ 62 ∧ b ≠ 38) := by
  refine ⟨fun s len b hb => percentencode_mem_safe s len b hb, ?_⟩
  intro env repo name description row ret h
  rcases writelog_row_cases env repo name description row ret h with h0 | ⟨time, hrow⟩
  · exact Or.inl h0
  · refine Or.inr ⟨percentencode (withoutGitSuffix name) (strlen (withoutGitSuffix name)),
      xmlencode (withoutGitSuffix name) (strlen (withoutGitSuffix name)) ++ (lit "</a></td><td>"
        ++ (xmlencode description (strlen description) ++ (lit "</td><td>"
        ++ (time ++ lit "</td></tr>\n")))), ?_, ?_⟩
    · rw [hrow]
      unfold repoRow
      simp only [List.append_assoc]
    · intro b hb
      have := percentencode_mem_safe _ _ b hb
      exact ⟨this.1, this.2.1, this.2.2.1, this.2.2.2.1, this.2.2.2.2.1⟩

theorem percentencode_output_attribute_safe_witness :
    percentencode (lit "a\"><b") 5 = lit "a%22%3E%3Cb" ∧
      ((37 : Byte) ≠ 34 ∧ (37 : Byte) ≠ 39 ∧ (37 : Byte) ≠ 60 ∧ (37 : Byte) ≠ 62
        ∧ (37 : Byte) ≠ 38 ∧ (37 : Byte) ≠ 32 ∧ 0x20 ≤ (37 : Byte).val
        ∧ (37 : Byte).val ≠ 0x7F ∧ (37 : Byte).val ≤ 0x7E) ∧
      (lit ("<tr class=\"repo\"><td><a href=\"a%22%3E/\">a&quot;&gt;</a></td><td></td>"
          ++ "<td>1970-01-01 00:00</td></tr>\n") = [] ∨
        ∃ href rest,
          lit ("<tr class=\"repo\"><td><a href=\"a%22%3E/\">a&quot;&gt;</a></td><td></td>"
              ++ "<td>1970-01-01 00:00</td></tr>\n")
            = lit "<tr class=\"repo\"><td><a href=\"" ++ href ++ lit "/\">" ++ rest ∧
          ∀ b ∈ href, b ≠ 34 ∧ b ≠ 39 ∧ b ≠ 60 ∧ b ≠ 62 ∧ b ≠ 38) :=
  ⟨by decide, percentencode_output_attribute_safe.1 (lit "a\"><b") 5 37 (by decide),
    percentencode_output_attribute_safe.2 exampleEnv exampleRepo (lit "a\">.git") (lit "")
      _ 0 (by decide!)⟩

/-! ## Path joiner -/

/-- C8 as stated fails: for an empty base no `/` is inserted, although the
base does not end in `/`; the buffer holds `description`, not `/description`. -/
theorem joinpath_empty_base :
    joinpath 4096 (lit "") (lit "description") = some (lit "description") ∧
    joinpath 4096 (lit "") (lit "description") ≠ some (lit "/description") := by
  decide

/-- C8, amended: for every base path, relative component and buffer size,
`joinpath` returns exactly when the whole string fits (shorter than the buffer
size, and its length an `int`), and the buffer then holds exactly
base ++ "/" ++ relative, with the "/" omitted if and only if the base is empty
or already ends in `/`; otherwise the process is terminated.  A truncated
string is never returned. -/
theorem joinpath_whole_or_fatal (bufsiz : Nat) (path path2 : List Byte) :
    joinpath bufsiz path path2 =
      if (cstr path ++ (if cstr path = [] ∨ (cstr path).getLast? = some 47 then [] else [47])
            ++ cstr path2).length < bufsiz ∧
         (cstr path ++ (if cstr path = [] ∨ (cstr path).getLast? = some 47 then [] else [47])
            ++ cstr path2).length ≤ INT_MAX
      then some (cstr path
        ++ (if cstr path = [] ∨ (cstr path).getLast? = some 47 then [] else [47])
        ++ cstr path2)
      else none :=
  joinpath_eq bufsiz path path2

/-! ## Sidecar files -/

/-- C9 as stated fails: a description file holding `a`, NUL, `b`, newline
gives the field `a`, while its first line without the newline is `a`, NUL,
`b`. -/
theorem readDescription_nul_in_line :
    cstr (readDescription description0 (some [97, 0, 98, 10])) = [97] ∧
    firstLine [97, 0, 98, 10] = [97, 0, 98] := by
  decide!

/-- C9, amended: for every content of a readable description or owner file
and every previous content of the buffer, the stored field is the first line
of the content without its newline, cut to 254 bytes, up to the first NUL byte
of that line if it has one (so it is that line itself when the line has no
NUL byte); `hello\n` gives `hello`; an empty or unreadable file gives the
empty string whatever the previous repository left in the buffer. -/
theorem sidecar_field (old data : List Byte) :
    cstr (readDescription old (some data)) = cstr (firstLine data) ∧
    cstr (readOwner old (some data)) = cstr (firstLine data) ∧
    ((∀ b ∈ firstLine data, b ≠ 0) →
      cstr (readDescription old (some data)) = firstLine data ∧
      cstr (readOwner old (some data)) = firstLine data) ∧
    cstr (readDescription old (some (lit "hello\n"))) = lit "hello" ∧
    cstr (readOwner old (some (lit "hello\n"))) = lit "hello" ∧
    cstr (readDescription old (some [])) = [] ∧
    cstr (readOwner old (some [])) = [] ∧
    cstr (readDescription old none) = [] ∧
    cstr (readOwner old none) = [] := by
  have hhello : cstr (firstLine (lit "hello\n")) = lit "hello" := by decide
  have hempty : cstr (firstLine []) = [] := by decide
  refine ⟨readDescription_some old data, readOwner_some old data, ?_, ?_, ?_, ?_, ?_,
    readDescription_none old, readOwner_none old⟩
  · intro h
    rw [readDescription_some, readOwner_some, cstr_of_no_nul _ h]
    exact ⟨rfl, rfl⟩
  · rw [readDescription_some, hhello]
  · rw [readOwner_some, hhello]
  · rw [readDescription_some, hempty]
  · rw [readOwner_some, hempty]

theorem sidecar_field_witness :
    cstr (readDescription (lit "stale" ++ [0]) (some (lit "no newline"))) = lit "no newline" :=
  ((sidecar_field (lit "stale" ++ [0]) (lit "no newline")).2.2.1 (by decide!)).1.trans
    (by decide)

/-! ## The row of a repository -/

/-- C4: for every display name, description and resolved commit (the copy of
the name being allocated), `writelog` writes exactly
`<tr class="repo"><td><a href="` percentencode(s) `/">` xmlencode(s)
`</a></td><td>` xmlencode(description) `</td><td>` time `</td></tr>\n` and
returns 0, where `s` is the display name without its last four bytes if it
ends with `.git` and the display name itself otherwise, and the time is what
`printtimeshort` writes for the author of the commit (nothing without author). -/
theorem writelog_repository_row (env : Env) (repo : Repository) (name description : List Byte)
    (id : Nat) (commit : Commit)
    (hwalk : repo.revwalk_next = some id) (hlookup : repo.commit_lookup id = some commit)
    (hmem : env.malloc_ok (strlen name + 1) = true) :
    writelog env repo name description =
      some (lit "<tr class=\"repo\"><td><a href=\""
        ++ percentencode (withoutGitSuffix name) (strlen (withoutGitSuffix name))
        ++ lit "/\">"
        ++ xmlencode (withoutGitSuffix name) (strlen (withoutGitSuffix name))
        ++ lit "</a></td><td>"
        ++ xmlencode description (strlen description)
        ++ lit "</td><td>"
        ++ (match commit.author with
            | some author => printtimeshort env author.when
            | none => [])
        ++ lit "</td></tr>\n", 0) ∧
    (lit ".git" <:+ cstr name → withoutGitSuffix name ++ lit ".git" = cstr name) ∧
    (¬ lit ".git" <:+ cstr name → withoutGitSuffix name = cstr name) := by
  refine ⟨?_, ?_, ?_⟩
  · rw [writelog_resolved env repo name description id commit hwalk hlookup hmem]
    rfl
  · intro h
    unfold withoutGitSuffix
    rw [if_pos h]
    obtain ⟨a, ha⟩ := h
    rw [← ha, lit_dotgit]
    simp
  · intro h
    unfold withoutGitSuffix
    rw [if_neg h]

theorem writelog_repository_row_witness :
    writelog exampleEnv exampleRepo (lit "example.git") (lit "hello") =
      some (lit ("<tr class=\"repo\"><td><a href=\"example/\">example</a></td><td>hello</td>"
        ++ "<td>1970-01-01 00:00</td></tr>\n"), 0) :=
  (writelog_repository_row exampleEnv exampleRepo (lit "example.git") (lit "hello") 1
    { author := some { when := 0 } } rfl rfl rfl).1.trans (by decide!)

/-! ## The driver -/

theorem main_eq_toOutcome (env : Env) (prog : List Byte) (args : List (List Byte))
    (h : args ≠ []) :
    main env (prog :: args) = (mainLoop env args state0).toOutcome := by
  cases args with
  | nil => exact absurd rfl h
  | cons a t =>
    have hlen : ¬ (prog :: a :: t).length < 2 := by simp
    unfold main
    rw [if_neg hlen]
    simp only [List.tail_cons]
    cases mainLoop env (a :: t) state0 <;> rfl

theorem main_of_length (env : Env) (argv : List (List Byte)) (h : 2 ≤ argv.length) :
    main env argv = (mainLoop env argv.tail state0).toOutcome := by
  have hlen : ¬ argv.length < 2 := by omega
  unfold main
  rw [if_neg hlen]
  cases mainLoop env argv.tail state0 <;> rfl

/-- The body of the loop at an opened repository whose walk or lookup fails,
the sidecar paths fitting the path buffer. -/
theorem processRepo_walk_failed (env : Env) (repodir repodirabs : List Byte)
    (repo : Repository) (st : State) (fp fp2 : Option (List Byte))
    (hreal : env.realpath (cstr repodir) = some repodirabs)
    (hopen : env.repository_open (cstr repodir) = some repo)
    (hwalk : repo.revwalk_next = none ∨
      ∃ id, repo.revwalk_next = some id ∧ repo.commit_lookup id = none)
    (hdesc : openSidecar env repodir "description" ".git/description" = some fp)
    (howner : openSidecar env repodir "owner" ".git/owner" = some fp2) :
    processRepo env repodir st = .finished
      { out := st.out, ret := st.ret,
        description := readDescription st.description fp,
        owner := readOwner st.owner fp2 } := by
  have hw := writelog_unresolved env repo (repoName repodirabs)
    (readDescription st.description fp) hwalk
  simp [processRepo, hreal, hopen, hdesc, howner, hw]

/-- C5 as stated fails: the repository `new` opens, its history walk yields
no commit, and the run writes the header and the footer with no row for it:
the output contains no repository row at all.  The exit status is 0. -/
theorem main_walk_failure_no_row :
    (exampleEnv.repository_open (lit "new")).map Repository.revwalk_next = some none ∧
    main exampleEnv [lit "stagit-index", lit "new"]
      = .exit 0 (writeheader description0 ++ writefooter) ∧
    ¬ (lit "<tr class=\"repo\">"
        <:+: (main exampleEnv [lit "stagit-index", lit "new"]).stdout) := by
  decide!

/-- C5, amended: for every repository that opens successfully but whose
history walk or commit lookup fails (its sidecar paths fitting the path
buffer, and the arguments before it processed without fatal error),
`writelog` writes nothing and returns -1; the loop goes on with the next
argument with the same output and the same `ret`; so the run emits no row for
that repository and the failure does not change the exit status: alone on the
command line it gives the header and the footer with status 0, and among other
arguments the run ends exactly as the run without it, same output and same
exit status. -/
theorem walk_failure_emits_no_row (env : Env) (prog repodir repodirabs : List Byte)
    (pre post : List (List Byte)) (repo : Repository) (st : State)
    (fp fp2 : Option (List Byte))
    (hpre : mainLoop env pre state0 = .finished st)
    (hc : streq repodir (lit "-c") = false)
    (hreal : env.realpath (cstr repodir) = some repodirabs)
    (hopen : env.repository_open (cstr repodir) = some repo)
    (hwalk : repo.revwalk_next = none ∨
      ∃ id, repo.revwalk_next = some id ∧ repo.commit_lookup id = none)
    (hdesc : openSidecar env repodir "description" ".git/description" = some fp)
    (howner : openSidecar env repodir "owner" ".git/owner" = some fp2) :
    (∀ name description, writelog env repo name description = some ([], -1)) ∧
    (∀ (st0 : State) (rest : List (List Byte)),
      mainLoop env (repodir :: rest) st0 = mainLoop env rest
        { out := st0.out, ret := st0.ret,
          description := readDescription st0.description fp,
          owner := readOwner st0.owner fp2 }) ∧
    main env [prog, repodir] = .exit 0 (writeheader description0 ++ writefooter) ∧
    (pre ++ post ≠ [] →
      main env (prog :: (pre ++ repodir :: post)) = main env (prog :: (pre ++ post))) := by
  have hstep : ∀ (st0 : State) (rest : List (List Byte)),
      mainLoop env (repodir :: rest) st0 = mainLoop env rest
        { out := st0.out, ret := st0.ret,
          description := readDescription st0.description fp,
          owner := readOwner st0.owner fp2 } := fun st0 rest =>
    mainLoop_repo_finished env repodir rest st0 _ hc
      (processRepo_walk_failed env repodir repodirabs repo st0 fp fp2 hreal hopen hwalk
        hdesc howner)
  refine ⟨fun name description => writelog_unresolved env repo name description hwalk,
    hstep, ?_, ?_⟩
  · rw [main_eq_toOutcome env prog [repodir] (by simp), hstep state0 [], mainLoop_nil]
    rfl
  · intro hne
    rw [main_eq_toOutcome env prog _ (by simp), main_eq_toOutcome env prog _ hne,
      mainLoop_append env (repodir :: post) pre.length pre state0 st (le_refl _) hpre,
      mainLoop_append env post pre.length pre state0 st (le_refl _) hpre, hstep st post]
    exact mainLoop_buffers_irrelevant env post.length post _ st (le_refl _) rfl rfl

theorem walk_failure_emits_no_row_witness :
    main exampleEnv [lit "stagit-index", lit "example.git", lit "new", lit "plain"]
      = main exampleEnv [lit "stagit-index", lit "example.git", lit "plain"] ∧
    main exampleEnv [lit "stagit-index", lit "example.git", lit "plain"]
      = .exit 1 (writeheader description0
          ++ repoRow (lit "example") (lit "hello") (lit "1970-01-01 00:00") ++ writefooter) ∧
    main exampleEnv [lit "stagit-index", lit "new"]
      = .exit 0 (writeheader description0 ++ writefooter) ∧
    writelog exampleEnv newRepo (lit "new") (lit "") = some ([], -1) :=
  have h := walk_failure_emits_no_row exampleEnv (lit "stagit-index") (lit "new")
    (lit "/srv/repos/new") [lit "example.git"] [lit "plain"] newRepo
    { out := writeheader description0
        ++ repoRow (lit "example") (lit "hello") (lit "1970-01-01 00:00")
      ret := 0
      description := readDescription description0 (some (lit "hello\n"))
      owner := readOwner owner0 none }
    none none (by decide!) (by decide) (by decide) rfl (Or.inl rfl) (by decide!) (by decide!)
  ⟨h.2.2.2 (by decide), by decide!, h.2.2.1, h.1 (lit "new") (lit "")⟩

/-- C6 as stated fails: `missing` does not exist (neither `realpath` nor
opening succeeds); the run ends at that argument with status 1, the output is
the header alone, without the footer, and the repository `example.git` that
follows is not processed. -/
theorem main_missing_repository_fatal :
    exampleEnv.realpath (lit "missing") = none ∧
    (exampleEnv.repository_open (lit "missing")).isNone = true ∧
    main exampleEnv [lit "stagit-index", lit "missing", lit "example.git"]
      = .fatal (writeheader description0) ∧
    (main exampleEnv [lit "stagit-index", lit "missing", lit "example.git"]).stdout
      ≠ writeheader description0 ++ writefooter ∧
    main exampleEnv [lit "stagit-index", lit "example.git"]
      = .exit 0 (writeheader description0
          ++ repoRow (lit "example") (lit "hello") (lit "1970-01-01 00:00") ++ writefooter) := by
  decide!

/-- C6, amended: for every argument list containing a repository argument
whose absolute path cannot be resolved (it does not exist on disk), the
arguments before it being processed without fatal error, the run ends at that
argument with exit status 1; its output is the complete header followed by the
rows of the arguments before it, in order, and nothing else: no row for that
entry, no footer, and the arguments after it are not processed. -/
theorem main_realpath_failure (env : Env) (prog repodir : List Byte)
    (pre post : List (List Byte)) (st : State)
    (hpre : mainLoop env pre state0 = .finished st)
    (hc : streq repodir (lit "-c") = false)
    (hreal : env.realpath (cstr repodir) = none) :
    main env (prog :: (pre ++ repodir :: post)) = .fatal st.out ∧
    (main env (prog :: (pre ++ repodir :: post))).status = 1 ∧
    ∃ items, parseArgs pre = some items ∧
      (main env (prog :: (pre ++ repodir :: post))).stdout
        = writeheader description0 ++ (items.map (expectedRow env)).flatten := by
  have hmain : main env (prog :: (pre ++ repodir :: post)) = .fatal st.out := by
    rw [main_eq_toOutcome env prog _ (by simp),
      mainLoop_append env (repodir :: post) pre.length pre state0 st (le_refl _) hpre,
      mainLoop_repo_fatal env repodir post st st.out hc
        (processRepo_realpath_none env repodir st hreal)]
    rfl
  obtain ⟨items, hp, _, hout, _⟩ :=
    mainLoop_finished env pre.length pre state0 st (le_refl _) hpre
  refine ⟨hmain, by rw [hmain]; rfl, items, hp, ?_⟩
  rw [hmain]
  exact hout

theorem main_realpath_failure_witness :
    main exampleEnv [lit "stagit-index", lit "example.git", lit "missing", lit "new"]
      = .fatal (writeheader description0
          ++ repoRow (lit "example") (lit "hello") (lit "1970-01-01 00:00")) :=
  (main_realpath_failure exampleEnv (lit "stagit-index") (lit "missing")
    [lit "example.git"] [lit "new"]
    { out := writeheader description0
        ++ repoRow (lit "example") (lit "hello") (lit "1970-01-01 00:00")
      ret := 0
      description := readDescription description0 (some (lit "hello\n"))
      owner := readOwner owner0 none }
    (by decide!) (by decide) (by decide)).1

/-- C7: for every argument list processed without a fatal error, the output
is the header once, then the rows of the items of the argument list in
exactly argument order, then the footer once.  The row of an item is a
function of the item and the environment alone: a `-c label` pair contributes
exactly the row
`<tr class="cat"><td>` xmlencode(label) `</td><td></td><td></td></tr>\n`, and a
repository argument contributes nothing or exactly one repository row, for its
own directory name, description and head commit.  Both directions are proved:
a run that reaches its `return ret` has this output, every item having been
processed without fatal error; and an argument list of at least one argument
whose items are all processed without fatal error reaches its `return ret`
with this output (the exit status being 1 exactly when some repository failed
to open). -/
theorem main_rows_in_argument_order (env : Env) (argv : List (List Byte)) :
    (∀ ret out, main env argv = .exit ret out →
      ∃ items, parseArgs argv.tail = some items ∧
        (∀ it ∈ items, processedWithoutFatal env it = true) ∧
        out = writeheader description0 ++ (items.map (expectedRow env)).flatten
          ++ writefooter ∧
        ret = if items.any (failsToOpen env) then 1 else 0) ∧
    (∀ items, 2 ≤ argv.length → parseArgs argv.tail = some items →
      (∀ it ∈ items, processedWithoutFatal env it = true) →
      main env argv = .exit (if items.any (failsToOpen env) then 1 else 0)
        (writeheader description0 ++ (items.map (expectedRow env)).flatten
          ++ writefooter)) ∧
    (∀ label, expectedRow env (.category label)
      = lit "<tr class=\"cat\"><td>" ++ xmlencode label (strlen label)
        ++ lit "</td><td></td><td></td></tr>\n") ∧
    (∀ repodir, expectedRow env (.repository repodir) = [] ∨
      ∃ repodirabs commit, env.realpath (cstr repodir) = some repodirabs ∧
        expectedRow env (.repository repodir)
          = repoRow (withoutGitSuffix (repoName repodirabs)) (descriptionOf env repodir)
              (timeCell env commit)) := by
  have hfwd : ∀ ret out, main env argv = .exit ret out →
      ∃ items, parseArgs argv.tail = some items ∧
        (∀ it ∈ items, processedWithoutFatal env it = true) ∧
        out = writeheader description0 ++ (items.map (expectedRow env)).flatten
          ++ writefooter ∧
        ret = if items.any (failsToOpen env) then 1 else 0 := by
    intro ret out h
    by_cases hlen : argv.length < 2
    · unfold main at h
      rw [if_pos hlen] at h
      cases h
    · rw [main_of_length env argv (by omega)] at h
      cases hl : mainLoop env argv.tail state0 with
      | fatal o => rw [hl] at h; cases h
      | finished st =>
        rw [hl] at h
        simp only [Run.toOutcome, Outcome.exit.injEq] at h
        obtain ⟨items, hp, hok, hout, hret⟩ :=
          mainLoop_finished env argv.tail.length argv.tail state0 st (le_refl _) hl
        refine ⟨items, hp, hok, ?_, ?_⟩
        · rw [← h.2, hout]; rfl
        · rw [← h.1, hret]; rfl
  refine ⟨hfwd, ?_, fun label => rfl, ?_⟩
  · intro items hlen hp hok
    obtain ⟨st1, hl⟩ :=
      mainLoop_of_processed env argv.tail.length argv.tail items state0 (le_refl _) hp hok
    have hmain : main env argv = .exit st1.ret (st1.out ++ writefooter) := by
      rw [main_of_length env argv hlen, hl]; rfl
    obtain ⟨items1, hp1, _, hout, hret⟩ := hfwd _ _ hmain
    rw [hp] at hp1
    obtain rfl := Option.some.inj hp1
    rw [hmain, hout, hret]
  · intro repodir
    cases hr : env.realpath (cstr repodir) with
    | none => exact Or.inl (by simp [expectedRow, hr])
    | some repodirabs =>
      cases ho : env.repository_open (cstr repodir) with
      | none => exact Or.inl (by simp [expectedRow, hr, ho])
      | some repo =>
        cases hh : headCommit repo with
        | none => exact Or.inl (by simp [expectedRow, hr, ho, hh])
        | some commit =>
          exact Or.inr ⟨repodirabs, commit, rfl, by simp [expectedRow, hr, ho, hh]⟩

theorem main_rows_in_argument_order_witness :
    main exampleEnv [lit "stagit-index", lit "example.git", lit "-c", lit "a<b", lit "new",
        lit "plain"]
      = .exit 1 (writeheader description0
          ++ repoRow (lit "example") (lit "hello") (lit "1970-01-01 00:00")
          ++ writecategory (lit "a<b") ++ writefooter) ∧
    main exampleEnv [lit "stagit-index", lit "example.git", lit "-c", lit "a<b", lit "new",
        lit "plain"]
      = .exit
        (if [Item.repository (lit "example.git"), Item.category (lit "a<b"),
            Item.repository (lit "new"), Item.repository (lit "plain")].any
              (failsToOpen exampleEnv) then 1 else 0)
        (writeheader description0
          ++ ([Item.repository (lit "example.git"), Item.category (lit "a<b"),
              Item.repository (lit "new"), Item.repository (lit "plain")].map
                (expectedRow exampleEnv)).flatten
          ++ writefooter) ∧
    ∃ items,
      parseArgs [lit "example.git", lit "-c", lit "a<b", lit "new", lit "plain"] = some items ∧
      (∀ it ∈ items, processedWithoutFatal exampleEnv it = true) ∧
      writeheader description0
          ++ repoRow (lit "example") (lit "hello") (lit "1970-01-01 00:00")
          ++ writecategory (lit "a<b") ++ writefooter
        = writeheader description0 ++ (items.map (expectedRow exampleEnv)).flatten
          ++ writefooter ∧
      (1 : Int) = if items.any (failsToOpen exampleEnv) then 1 else 0 :=
  ⟨by decide!,
    (main_rows_in_argument_order exampleEnv
      [lit "stagit-index", lit "example.git", lit "-c", lit "a<b", lit "new", lit "plain"]).2.1
      [Item.repository (lit "example.git"), Item.category (lit "a<b"),
        Item.repository (lit "new"), Item.repository (lit "plain")]
      (by decide) (by decide!) (by decide!),
    (main_rows_in_argument_order exampleEnv
      [lit "stagit-index", lit "example.git", lit "-c", lit "a<b", lit "new", lit "plain"]).1
      1 _ (by decide!)⟩

end Stagit
